import Mathlib

/-!
Shallow embedding of the node subsystem of the Crypto_Ex1 repository
(`src/ex2/node.py`, `src/ex2/block.py`, together with the transaction type of
`src/ex1/transaction.py`).  Byte strings are modelled as `List Nat`; Python
dicts (which preserve insertion order) are modelled as association lists with
insert-in-place-or-append semantics; the hashing and signature facade
(`utils.py`, absent from the sources) is modelled as an abstract `Crypto`
record of a digest function and a verifier.
-/

abbrev Bytes := List Nat
abbrev TxID := Bytes
abbrev BlockHash := Bytes
abbrev PublicKey := Bytes
abbrev Sgn := Bytes

/-- The external digest/signature facade (`utils.py` is not part of the
sources; the spec treats it as an opaque collaborator).  `digest` models
SHA-256 streaming (a hash of the concatenation of all updates); `verify`
takes a message, a signature and a public key. -/
structure Crypto where
  digest : Bytes → Bytes
  verify : Bytes → Sgn → PublicKey → Bool

/-- Modelled from the spec: `GENESIS_BLOCK_PREV` lives in the absent
`utils.py`; the spec fixes it as a well-known sentinel, e.g. all-zero bytes
of digest width. -/
def GENESIS_BLOCK_PREV : BlockHash := List.replicate 32 0

/-- Modelled from the spec: `BLOCK_SIZE` lives in the absent `utils.py`; the
spec's end-to-end scenarios use 10. -/
def BLOCK_SIZE : Nat := 10

/-- `Transaction` from `src/ex1/transaction.py`: output address, optional
input txid (absent for coinbase), signature.  Equality is field equality
(`Transaction.__eq__`). -/
structure Transaction where
  output : PublicKey
  input : Option TxID
  signature : Sgn
deriving DecidableEq, Repr

/-- The txid preimage from `Transaction.get_txid`: a domain-separating tag
byte (`0x00` coinbase / `0x01` otherwise), then the input when present, then
output, then signature. -/
def txPreimage (t : Transaction) : Bytes :=
  match t.input with
  | none => 0 :: (t.output ++ t.signature)
  | some i => 1 :: (i ++ t.output ++ t.signature)

/-- `Transaction.get_txid`: SHA-256 of the tagged preimage (the caching of
the digest inside the Python object is semantically irrelevant). -/
def get_txid (c : Crypto) (t : Transaction) : TxID :=
  c.digest (txPreimage t)

/-- The txid formula exactly as the spec §4.1 words it:
`digest( tag(t.input) ‖ t.input? ‖ t.output ‖ t.signature )`. -/
def txidSpec (c : Crypto) (t : Transaction) : TxID :=
  c.digest ((if t.input.isSome then [1] else [0]) ++ t.input.elim [] id
    ++ t.output ++ t.signature)

/-- `Block` from `src/ex2/block.py`: previous block hash and transaction
list. -/
structure Block where
  prev_block_hash : BlockHash
  transactions : List Transaction
deriving DecidableEq, Repr

/-- `Block.get_block_hash`: SHA-256 of the previous hash followed by each
transaction's txid, in order. -/
def get_block_hash (c : Crypto) (b : Block) : BlockHash :=
  c.digest (b.prev_block_hash ++ (b.transactions.map (fun t => get_txid c t)).flatten)

/-! ### Association-list dictionaries (Python `dict` semantics) -/

/-- First-match lookup. -/
def dlookup {α β : Type} [DecidableEq α] : List (α × β) → α → Option β
  | [], _ => none
  | (k, v) :: rest, key => if key = k then some v else dlookup rest key

/-- Python `d[k] = v`: replace in place when the key exists, append
otherwise. -/
def dinsert {α β : Type} [DecidableEq α] : List (α × β) → α → β → List (α × β)
  | [], key, val => [(key, val)]
  | (k, v) :: rest, key, val =>
      if key = k then (key, val) :: rest else (k, v) :: dinsert rest key val

/-- Python `d.pop(k, None)`: remove the first entry at the key. -/
def derase {α β : Type} [DecidableEq α] : List (α × β) → α → List (α × β)
  | [], _ => []
  | (k, v) :: rest, key => if key = k then rest else (k, v) :: derase rest key

def dkeys {α β : Type} (m : List (α × β)) : List α := m.map Prod.fst

/-- Remove the first occurrence of an element (Python `list.remove`, guarded
by a membership test in the source). -/
def removeFirst {α : Type} [DecidableEq α] : List α → α → List α
  | [], _ => []
  | x :: rest, a => if x = a then rest else x :: removeFirst rest a

abbrev Utxo := List (TxID × Transaction)

/-! ### Node state (`Node.__init__`) -/

/-- The mutable per-node state of `Node`.  Connections are peer ids (peers
are in-process references in the source; only their identity matters for the
local state and the outbound-call model). -/
structure NodeState where
  public_key : PublicKey
  mempool : List Transaction
  mempool_inputs : List TxID
  connections : List Nat
  blocks : List (BlockHash × Block)
  block_heights : List (BlockHash × Nat)
  block_utxo : List (BlockHash × Utxo)
  latest_hash : BlockHash
deriving DecidableEq, Repr

/-- `Node.__init__`: empty mempool, no connections, genesis sentinel at
height 0 with empty snapshot, tip at the sentinel. -/
def initState (pk : PublicKey) : NodeState :=
  { public_key := pk
    mempool := []
    mempool_inputs := []
    connections := []
    blocks := []
    block_heights := [(GENESIS_BLOCK_PREV, 0)]
    block_utxo := [(GENESIS_BLOCK_PREV, [])]
    latest_hash := GENESIS_BLOCK_PREV }

/-- `Node._serialize_for_signature`: `txid + target`. -/
def serialize_for_signature (txid : TxID) (target : PublicKey) : Bytes :=
  txid ++ target

/-! ### Mempool admission (`Node.add_transaction_to_mempool`) -/

/-- Local effect of `Node.add_transaction_to_mempool` (propagation to peers
mutates only the peers; a propagation echo back to this node is rejected by
the duplicate test, so this is the node's net state change).  Returns the
boolean result together with the new state. -/
def add_transaction_to_mempool (c : Crypto) (st : NodeState)
    (transaction : Transaction) : Bool × NodeState :=
  match transaction.input with
  | none => (false, st)
  | some inp =>
    if transaction ∈ st.mempool then (false, st)
    else if inp ∈ st.mempool_inputs then (false, st)
    else
      match dlookup ((dlookup st.block_utxo st.latest_hash).getD []) inp with
      | none => (false, st)
      | some prev_tx =>
        if c.verify (serialize_for_signature inp transaction.output)
            transaction.signature prev_tx.output then
          (true, { st with mempool := st.mempool ++ [transaction],
                           mempool_inputs := st.mempool_inputs ++ [inp] })
        else (false, st)

/-! ### Block validation and storage (`Node._store_block`) -/

/-- The per-transaction validation loop of `Node._store_block`: maintains the
working snapshot and the within-block spent set; `none` on double spend,
missing input, or failed signature. -/
def validateTxs (c : Crypto) : Utxo → List TxID → List Transaction → Option Utxo
  | u, _, [] => some u
  | u, spent, tx :: rest =>
    match tx.input with
    | none => validateTxs c (dinsert u (get_txid c tx) tx) spent rest
    | some inp =>
      if inp ∈ spent then none
      else
        match dlookup u inp with
        | none => none
        | some prev_tx =>
          if c.verify (serialize_for_signature inp tx.output) tx.signature
              prev_tx.output then
            validateTxs c (dinsert (derase u inp) (get_txid c tx) tx)
              (inp :: spent) rest
          else none

/-- Pure application of a block's effects to a snapshot (each non-coinbase
input removed, each transaction inserted under its txid) — the successful
result of `validateTxs`. -/
def applyBlockEffects (c : Crypto) : Utxo → List Transaction → Utxo
  | u, [] => u
  | u, tx :: rest =>
    applyBlockEffects c
      (dinsert (match tx.input with | none => u | some i => derase u i)
        (get_txid c tx) tx) rest

/-- `Node._store_block`: validate against the parent snapshot; on success
record block, height and new snapshot; on any violation return `false` with
the state untouched (all mutations in the source happen after the checks). -/
def _store_block (c : Crypto) (st : NodeState) (block : Block)
    (parent_hash : BlockHash) : Bool × NodeState :=
  if (dlookup st.block_utxo parent_hash).isNone then (false, st)
  else if block.prev_block_hash ≠ parent_hash then (false, st)
  else if block.transactions.length > BLOCK_SIZE ∨ block.transactions.length = 0 then
    (false, st)
  else if (block.transactions.countP (fun tx => tx.input.isNone)) ≠ 1 then (false, st)
  else
    match validateTxs c ((dlookup st.block_utxo parent_hash).getD []) []
        block.transactions with
    | none => (false, st)
    | some new_utxo =>
      let block_hash := get_block_hash c block
      let height := (dlookup st.block_heights parent_hash).getD 0 + 1
      (true, { st with
                blocks := dinsert st.blocks block_hash block,
                block_heights := dinsert st.block_heights block_hash height,
                block_utxo := dinsert st.block_utxo block_hash new_utxo })

/-! ### Mempool reconciliation (`Node._refresh_mempool_after_reorg`) -/

/-- The rebuild loop of `_refresh_mempool_after_reorg`: keep, in order, the
non-coinbase entries whose input is not yet taken, exists in the tip
snapshot, and whose signature re-verifies. -/
def refreshLoop (c : Crypto) (u : Utxo) :
    List Transaction → List Transaction → List TxID → List Transaction × List TxID
  | [], accM, accI => (accM, accI)
  | tx :: rest, accM, accI =>
    match tx.input with
    | none => refreshLoop c u rest accM accI
    | some inp =>
      if inp ∈ accI then refreshLoop c u rest accM accI
      else
        match dlookup u inp with
        | none => refreshLoop c u rest accM accI
        | some prev_tx =>
          if c.verify (serialize_for_signature inp tx.output) tx.signature
              prev_tx.output then
            refreshLoop c u rest (accM ++ [tx]) (accI ++ [inp])
          else refreshLoop c u rest accM accI

/-- `Node._refresh_mempool_after_reorg`. -/
def _refresh_mempool_after_reorg (c : Crypto) (st : NodeState) : NodeState :=
  let u := (dlookup st.block_utxo st.latest_hash).getD []
  let r := refreshLoop c u st.mempool [] []
  { st with mempool := r.1, mempool_inputs := r.2 }

/-! ### Chain selector (`Node._adopt_best_chain_if_needed`) -/

/-- The scan of `_adopt_best_chain_if_needed` over the height index: starting
from the incumbent tip and its recorded height (`.get(tip, 0)`), replace the
candidate only on a strictly greater height. -/
def bestPair (st : NodeState) : BlockHash × Nat :=
  st.block_heights.foldl (fun a e => if e.2 > a.2 then e else a)
    (st.latest_hash, (dlookup st.block_heights st.latest_hash).getD 0)

/-- `Node._adopt_best_chain_if_needed`: scan the height index for a strictly
greater height (first strict improvement wins, so ties keep the incumbent);
on a tip change, reconcile the mempool. -/
def _adopt_best_chain_if_needed (c : Crypto) (st : NodeState) : NodeState :=
  if (bestPair st).1 ≠ st.latest_hash then
    _refresh_mempool_after_reorg c { st with latest_hash := (bestPair st).1 }
  else st

/-! ### Gossip pull-walk (`Node._fetch_and_store_chain`, `Node.notify_of_block`) -/

/-- The ancestor walk of `_fetch_and_store_chain`.  `sender` is the peer's
`get_block` (as a partial function: `none` models the `ValueError`).  The
result list is oldest-first (the source appends and then replays reversed).
`none` models abandoning the walk (peer failure or a hash mismatch); the
source's `while` loop is given fuel, exhaustion also abandoning. -/
def fetchWalk (c : Crypto) (blocks : List (BlockHash × Block))
    (sender : BlockHash → Option Block) :
    Nat → BlockHash → List (BlockHash × Block) → Option (List (BlockHash × Block))
  | 0, _, _ => none
  | fuel + 1, cur, pending =>
    if (dlookup blocks cur).isSome ∨ cur = GENESIS_BLOCK_PREV then some pending
    else
      match sender cur with
      | none => none
      | some b =>
        if get_block_hash c b = cur then
          fetchWalk c blocks sender fuel b.prev_block_hash ((cur, b) :: pending)
        else none

/-- The replay loop of `_fetch_and_store_chain`: apply the pending queue
oldest-to-newest, skipping a block whose parent snapshot is absent or whose
validation fails (`continue` in the source). -/
def replayPending (c : Crypto) : NodeState → List (BlockHash × Block) → NodeState
  | st, [] => st
  | st, (_, blk) :: rest =>
    if (dlookup st.block_utxo blk.prev_block_hash).isNone then
      replayPending c st rest
    else replayPending c (_store_block c st blk blk.prev_block_hash).2 rest

/-- `Node._fetch_and_store_chain`. -/
def _fetch_and_store_chain (c : Crypto) (st : NodeState)
    (sender : BlockHash → Option Block) (fuel : Nat) (block_hash : BlockHash) :
    NodeState :=
  match fetchWalk c st.blocks sender fuel block_hash [] with
  | none => st
  | some pending => replayPending c st pending

/-- State effect of `Node.notify_of_block`: fetch when the hash is unknown
and not the genesis sentinel, then re-run the chain selector. -/
def notifyState (c : Crypto) (st : NodeState) (sender : BlockHash → Option Block)
    (fuel : Nat) (block_hash : BlockHash) : NodeState :=
  let st1 :=
    if (dlookup st.blocks block_hash).isNone ∧ block_hash ≠ GENESIS_BLOCK_PREV then
      _fetch_and_store_chain c st sender fuel block_hash
    else st
  _adopt_best_chain_if_needed c st1

/-- The `get_block` requests `notify_of_block` issues to the sender during
the ancestor walk. -/
def walkRequests (c : Crypto) (blocks : List (BlockHash × Block))
    (sender : BlockHash → Option Block) : Nat → BlockHash → List BlockHash
  | 0, _ => []
  | fuel + 1, cur =>
    if (dlookup blocks cur).isSome ∨ cur = GENESIS_BLOCK_PREV then []
    else
      match sender cur with
      | none => [cur]
      | some b =>
        if get_block_hash c b = cur then
          cur :: walkRequests c blocks sender fuel b.prev_block_hash
        else [cur]

/-- All `get_block` requests issued by `notify_of_block`. -/
def notifyRequests (c : Crypto) (st : NodeState) (sender : BlockHash → Option Block)
    (fuel : Nat) (block_hash : BlockHash) : List BlockHash :=
  if (dlookup st.blocks block_hash).isNone ∧ block_hash ≠ GENESIS_BLOCK_PREV then
    walkRequests c st.blocks sender fuel block_hash
  else []

/-- The peers `notify_of_block` re-broadcasts to: every connection except the
sender, exactly when the post-state tip equals the announced hash. -/
def notifyRebroadcastTargets (c : Crypto) (st : NodeState) (senderId : Nat)
    (sender : BlockHash → Option Block) (fuel : Nat) (block_hash : BlockHash) :
    List Nat :=
  let st' := notifyState c st sender fuel block_hash
  if st'.latest_hash = block_hash then st'.connections.filter (fun p => p ≠ senderId)
  else []

/-! ### Mining (`Node.mine_block`) -/

/-- Outcome of `Node.mine_block`: the new hash, the node's new state, and the
peers notified.  The coinbase signature is the 64 random bytes drawn by the
source (`secrets.token_bytes(64)`), here a parameter. -/
structure MineResult where
  newHash : BlockHash
  state : NodeState
  notified : List Nat
deriving DecidableEq, Repr

/-- The mempool clean-up loop of `mine_block`: remove each included
transaction (when still present) by equality and discard its input. -/
def removeMined : NodeState → List Transaction → NodeState
  | st, [] => st
  | st, tx :: rest =>
    removeMined
      { st with
          mempool := if tx ∈ st.mempool then removeFirst st.mempool tx else st.mempool,
          mempool_inputs :=
            match tx.input with
            | none => st.mempool_inputs
            | some i => st.mempool_inputs.filter (fun x => x ≠ i) }
      rest

/-- The block `mine_block` assembles: parent is the current tip, the node's
own coinbase (output = own key, no input, the random signature slot) first,
then the first `BLOCK_SIZE - 1` mempool transactions in mempool order. -/
def mineBlockOf (st : NodeState) (coinbaseSig : Sgn) : Block :=
  ⟨st.latest_hash,
    ⟨st.public_key, none, coinbaseSig⟩ :: st.mempool.take (BLOCK_SIZE - 1)⟩

/-- `Node.mine_block`: coinbase plus the first `BLOCK_SIZE - 1` mempool
entries, parent the current tip; `none` models the `ValueError` raised when
the freshly mined block fails its own store's validation. -/
def mine_block (c : Crypto) (st : NodeState) (coinbaseSig : Sgn) :
    Option MineResult :=
  let usable := st.mempool.take (BLOCK_SIZE - 1)
  let block : Block := mineBlockOf st coinbaseSig
  let block_hash := get_block_hash c block
  let r := _store_block c st block st.latest_hash
  if r.1 then
    let st2 := _adopt_best_chain_if_needed c r.2
    let st3 := removeMined st2 usable
    some ⟨block_hash, st3, st.connections⟩
  else none

/-- The node state after `mine_block` (unchanged when the store rejects,
since the source mutates nothing before raising). -/
def mineState (c : Crypto) (st : NodeState) (coinbaseSig : Sgn) : NodeState :=
  match mine_block c st coinbaseSig with
  | none => st
  | some r => r.state

/-! ### Remaining public surface -/

/-- `Node.clear_mempool`. -/
def clearMempool (st : NodeState) : NodeState :=
  { st with mempool := [], mempool_inputs := [] }

/-- Local effect of `Node.connect` on this node's peer set (the bidirectional
tip exchange is a pair of `notify_of_block` calls, covered separately). -/
def connectState (st : NodeState) (peer : Nat) : NodeState :=
  if peer ∈ st.connections then st
  else { st with connections := st.connections ++ [peer] }

/-- `Node.disconnect_from`. -/
def disconnectState (st : NodeState) (peer : Nat) : NodeState :=
  { st with connections := st.connections.filter (fun p => p ≠ peer) }

/-- `Node.get_block`: `none` models the `ValueError` for the genesis sentinel
and unknown ids. -/
def node_get_block (st : NodeState) (block_hash : BlockHash) : Option Block :=
  if block_hash = GENESIS_BLOCK_PREV then none
  else dlookup st.blocks block_hash

/-- Recorded height of the node's tip (`_block_heights.get(tip, 0)`). -/
def tipHeight (st : NodeState) : Nat :=
  (dlookup st.block_heights st.latest_hash).getD 0

/-! ### Invariants -/

/-- Well-formedness of the block store: unique keys per index, the three
indices aligned (every stored id has a block, a height and a snapshot; the
genesis sentinel has a height and a snapshot but no block), and the genesis
records of `Node.__init__` intact. -/
structure StoreWF (st : NodeState) : Prop where
  ndBlocks : (dkeys st.blocks).Nodup
  ndHeights : (dkeys st.block_heights).Nodup
  ndUtxo : (dkeys st.block_utxo).Nodup
  genHeight : dlookup st.block_heights GENESIS_BLOCK_PREV = some 0
  genUtxo : dlookup st.block_utxo GENESIS_BLOCK_PREV = some []
  genNotBlock : GENESIS_BLOCK_PREV ∉ dkeys st.blocks
  heightsSub : ∀ k ∈ dkeys st.block_heights,
    k = GENESIS_BLOCK_PREV ∨ k ∈ dkeys st.blocks
  utxoSub : ∀ k ∈ dkeys st.block_utxo,
    k = GENESIS_BLOCK_PREV ∨ k ∈ dkeys st.blocks
  blocksHeights : ∀ k ∈ dkeys st.blocks, k ∈ dkeys st.block_heights
  blocksUtxo : ∀ k ∈ dkeys st.blocks, k ∈ dkeys st.block_utxo

/-- The chain invariant: every stored block id round-trips through
`get_block_hash`, its height is its parent's height plus one, and its
snapshot is the validated application of the block to its parent's
snapshot. -/
structure ChainConsist (c : Crypto) (st : NodeState) : Prop where
  consist : ∀ e ∈ st.blocks,
    get_block_hash c e.2 = e.1 ∧
    (∃ hp, dlookup st.block_heights e.2.prev_block_hash = some hp ∧
      dlookup st.block_heights e.1 = some (hp + 1)) ∧
    (∃ up u', dlookup st.block_utxo e.2.prev_block_hash = some up ∧
      validateTxs c up [] e.2.transactions = some u' ∧
      dlookup st.block_utxo e.1 = some u')

/-- The tip has a recorded height and no stored block is strictly higher. -/
structure TipMax (st : NodeState) : Prop where
  tipMem : st.latest_hash ∈ dkeys st.block_heights
  maxAt : ∀ e ∈ st.block_heights, e.2 ≤ tipHeight st

/-- Disjointness and sync of a mempool/consumed-input pair: no coinbase,
pairwise distinct inputs, the index holding exactly the entries' inputs. -/
structure MpSync (mp : List Transaction) (ins : List TxID) : Prop where
  noCoinbase : ∀ tx ∈ mp, tx.input ≠ none
  distinctInputs : mp.Pairwise (fun a b => a.input ≠ b.input)
  syncTo : ∀ i ∈ ins, ∃ tx ∈ mp, tx.input = some i
  syncFrom : ∀ tx ∈ mp, ∀ i, tx.input = some i → i ∈ ins
  ndInputs : ins.Nodup

/-- Mempool disjointness invariant of a node state. -/
def MempoolInv (st : NodeState) : Prop :=
  MpSync st.mempool st.mempool_inputs

/-- Conjunction of all node invariants. -/
structure NodeInv (c : Crypto) (st : NodeState) : Prop where
  wf : StoreWF st
  chain : ChainConsist c st
  tip : TipMax st
  mp : MempoolInv st

/-! ### Reachable states

The freshness side conditions on the block-producing steps model the
spec's cryptographic-digest assumption (no hash collision with an already
stored id, and no digest equal to the genesis sentinel). -/

/-- The block mined now would be stored under a hash that is not yet a key
of any index and is not the genesis sentinel. -/
def mineFresh (c : Crypto) (st : NodeState) (sig : Sgn) : Prop :=
  dlookup st.blocks (get_block_hash c (mineBlockOf st sig)) = none ∧
  dlookup st.block_heights (get_block_hash c (mineBlockOf st sig)) = none ∧
  dlookup st.block_utxo (get_block_hash c (mineBlockOf st sig)) = none ∧
  get_block_hash c (mineBlockOf st sig) ≠ GENESIS_BLOCK_PREV

/-- The ancestor walk fetches pairwise distinct hashes (no digest cycle). -/
def walkNodup (c : Crypto) (st : NodeState) (sender : BlockHash → Option Block)
    (fuel : Nat) (h : BlockHash) : Prop :=
  match fetchWalk c st.blocks sender fuel h [] with
  | none => True
  | some p => (p.map Prod.fst).Nodup

/-- One public operation on the node, as its local state transformation
(peer mutations touch only the peers; echoes back into this node are
themselves `Step`s). -/
inductive Step (c : Crypto) : NodeState → NodeState → Prop
  | addTx (st : NodeState) (tx : Transaction) :
      Step c st (add_transaction_to_mempool c st tx).2
  | notify (st : NodeState) (sender : BlockHash → Option Block) (fuel : Nat)
      (h : BlockHash) (hnd : walkNodup c st sender fuel h) :
      Step c st (notifyState c st sender fuel h)
  | mine (st : NodeState) (sig : Sgn) (hf : mineFresh c st sig) :
      Step c st (mineState c st sig)
  | clear (st : NodeState) : Step c st (clearMempool st)
  | connect (st : NodeState) (p : Nat) : Step c st (connectState st p)
  | disconnect (st : NodeState) (p : Nat) : Step c st (disconnectState st p)

/-- States reachable from a fresh node by public operations. -/
inductive Reachable (c : Crypto) (pk : PublicKey) : NodeState → Prop
  | init : Reachable c pk (initState pk)
  | step {st st' : NodeState} :
      Reachable c pk st → Step c st st' → Reachable c pk st'

/-! ### Association-list lemmas -/

theorem dlookup_dinsert_self {α β : Type} [DecidableEq α]
    (m : List (α × β)) (k : α) (v : β) : dlookup (dinsert m k v) k = some v := by
  induction m with
  | nil => simp [dinsert, dlookup]
  | cons e rest ih =>
    by_cases h : k = e.1
    · simp [dinsert, h, dlookup]
    · simp [dinsert, h, dlookup, ih]

theorem dlookup_dinsert_ne {α β : Type} [DecidableEq α]
    (m : List (α × β)) {k k' : α} (v : β) (h : k' ≠ k) :
    dlookup (dinsert m k v) k' = dlookup m k' := by
  induction m with
  | nil => simp [dinsert, dlookup, h]
  | cons e rest ih =>
    by_cases hk : k = e.1
    · subst hk
      simp [dinsert, dlookup, h]
    · by_cases hk' : k' = e.1
      · simp [dinsert, hk, dlookup, hk']
      · simp [dinsert, hk, dlookup, hk', ih]

theorem mem_dkeys_dinsert {α β : Type} [DecidableEq α]
    (m : List (α × β)) (k k' : α) (v : β) :
    k' ∈ dkeys (dinsert m k v) ↔ k' = k ∨ k' ∈ dkeys m := by
  induction m with
  | nil => simp [dinsert, dkeys]
  | cons e rest ih =>
    by_cases hk : k = e.1
    · subst hk
      simp only [dinsert, if_pos rfl, dkeys, List.map_cons, List.mem_cons]
      simp [dkeys]
    · simp only [dinsert, if_neg hk, dkeys, List.map_cons, List.mem_cons] at *
      tauto

theorem dkeys_dinsert_of_not_mem {α β : Type} [DecidableEq α]
    (m : List (α × β)) (k : α) (v : β) (h : k ∉ dkeys m) :
    dkeys (dinsert m k v) = dkeys m ++ [k] := by
  induction m with
  | nil => simp [dinsert, dkeys]
  | cons e rest ih =>
    simp only [dkeys, List.map_cons, List.mem_cons] at h
    push_neg at h
    simp only [dinsert, if_neg h.1, dkeys, List.map_cons, List.cons_append]
    rw [show List.map Prod.fst (dinsert rest k v) = dkeys (dinsert rest k v) from rfl,
      ih h.2]
    rfl

theorem dkeys_dinsert_of_mem {α β : Type} [DecidableEq α]
    (m : List (α × β)) (k : α) (v : β) (h : k ∈ dkeys m) :
    dkeys (dinsert m k v) = dkeys m := by
  induction m with
  | nil => simp [dkeys] at h
  | cons e rest ih =>
    by_cases hk : k = e.1
    · simp [dinsert, hk, dkeys]
    · simp only [dkeys, List.map_cons, List.mem_cons] at h
      rcases h with h | h
      · exact absurd h hk
      · simp only [dinsert, if_neg hk, dkeys, List.map_cons]
        rw [show List.map Prod.fst (dinsert rest k v) = dkeys (dinsert rest k v) from rfl,
          ih h]
        rfl

theorem nodup_dkeys_dinsert {α β : Type} [DecidableEq α]
    (m : List (α × β)) (k : α) (v : β) (h : (dkeys m).Nodup) :
    (dkeys (dinsert m k v)).Nodup := by
  by_cases hm : k ∈ dkeys m
  · rw [dkeys_dinsert_of_mem m k v hm]; exact h
  · rw [dkeys_dinsert_of_not_mem m k v hm]
    simpa [List.nodup_append] using ⟨h, hm⟩

theorem dlookup_eq_none_iff {α β : Type} [DecidableEq α]
    (m : List (α × β)) (k : α) : dlookup m k = none ↔ k ∉ dkeys m := by
  induction m with
  | nil => simp [dlookup, dkeys]
  | cons e rest ih =>
    by_cases h : k = e.1
    · simp [dlookup, h, dkeys]
    · simp [dlookup, h, dkeys, ih]

theorem mem_dkeys_of_dlookup {α β : Type} [DecidableEq α]
    {m : List (α × β)} {k : α} {v : β} (h : dlookup m k = some v) :
    k ∈ dkeys m := by
  by_contra hk
  rw [← dlookup_eq_none_iff m k] at hk
  rw [h] at hk
  cases hk

theorem dlookup_isSome_of_mem {α β : Type} [DecidableEq α]
    {m : List (α × β)} {k : α} (h : k ∈ dkeys m) : (dlookup m k).isSome := by
  cases hl : dlookup m k with
  | none => exact absurd ((dlookup_eq_none_iff m k).1 hl) (by simp [h])
  | some v => rfl

theorem mem_of_dlookup {α β : Type} [DecidableEq α]
    {m : List (α × β)} {k : α} {v : β} (h : dlookup m k = some v) : (k, v) ∈ m := by
  induction m with
  | nil => cases h
  | cons e rest ih =>
    by_cases hk : k = e.1
    · subst hk
      simp [dlookup] at h
      subst h
      simp
    · simp only [dlookup, if_neg hk] at h
      exact List.mem_cons_of_mem _ (ih h)

theorem dlookup_of_mem {α β : Type} [DecidableEq α]
    {m : List (α × β)} {k : α} {v : β} (hnd : (dkeys m).Nodup)
    (h : (k, v) ∈ m) : dlookup m k = some v := by
  induction m with
  | nil => cases h
  | cons e rest ih =>
    simp only [dkeys, List.map_cons, List.nodup_cons] at hnd
    rcases List.mem_cons.1 h with h | h
    · subst h
      simp [dlookup]
    · have hmem : k ∈ dkeys rest := List.mem_map_of_mem Prod.fst h
      have hk : ¬ (k = e.1) := fun hke => hnd.1 (hke ▸ hmem)
      simp only [dlookup, if_neg hk]
      exact ih hnd.2 h

theorem mem_dinsert {α β : Type} [DecidableEq α]
    {m : List (α × β)} {k : α} {v : β} {e : α × β} (h : e ∈ dinsert m k v) :
    e = (k, v) ∨ e ∈ m := by
  induction m with
  | nil => simpa [dinsert] using h
  | cons f rest ih =>
    by_cases hk : k = f.1
    · simp only [dinsert, if_pos hk] at h
      rcases List.mem_cons.1 h with h | h
      · exact Or.inl h
      · exact Or.inr (List.mem_cons_of_mem _ h)
    · simp only [dinsert, if_neg hk] at h
      rcases List.mem_cons.1 h with h | h
      · exact Or.inr (h ▸ List.mem_cons_self _ _)
      · rcases ih h with h | h
        · exact Or.inl h
        · exact Or.inr (List.mem_cons_of_mem _ h)

theorem mem_dinsert_of_mem_of_ne {α β : Type} [DecidableEq α]
    {m : List (α × β)} {k : α} (v : β) {e : α × β} (he : e ∈ m) (hk : e.1 ≠ k) :
    e ∈ dinsert m k v := by
  induction m with
  | nil => cases he
  | cons f rest ih =>
    rcases List.mem_cons.1 he with h | h
    · subst h
      have : k ≠ e.1 := fun hh => hk hh.symm
      simp [dinsert, if_neg this]
    · by_cases hkf : k = f.1
      · simp only [dinsert, if_pos hkf]
        exact List.mem_cons_of_mem _ h
      · simp only [dinsert, if_neg hkf]
        exact List.mem_cons_of_mem _ (ih h)

/-! ### The best-chain scan -/

theorem foldBest_spec {α : Type} (l : List (α × Nat)) (init : α × Nat) :
    (l.foldl (fun a e => if e.2 > a.2 then e else a) init = init ∨
      (l.foldl (fun a e => if e.2 > a.2 then e else a) init ∈ l ∧
        init.2 < (l.foldl (fun a e => if e.2 > a.2 then e else a) init).2)) ∧
    ∀ e ∈ l, e.2 ≤ (l.foldl (fun a e => if e.2 > a.2 then e else a) init).2 := by
  induction l generalizing init with
  | nil => simp
  | cons x rest ih =>
    simp only [List.foldl_cons]
    by_cases hx : x.2 > init.2
    · rw [if_pos hx]
      rcases ih x with ⟨h1, h2⟩
      constructor
      · right
        rcases h1 with h1 | h1
        · exact ⟨by rw [h1]; exact List.mem_cons_self _ _, by rw [h1]; exact hx⟩
        · exact ⟨List.mem_cons_of_mem _ h1.1, lt_trans hx h1.2⟩
      · intro e he
        rcases List.mem_cons.1 he with rfl | he
        · rcases h1 with h1 | h1
          · rw [h1]
          · exact le_of_lt h1.2
        · exact h2 e he
    · rw [if_neg hx]
      rcases ih init with ⟨h1, h2⟩
      refine ⟨h1.imp id (fun hh => ⟨List.mem_cons_of_mem _ hh.1, hh.2⟩), ?_⟩
      intro e he
      rcases List.mem_cons.1 he with rfl | he
      · have hge : init.2 ≤ (rest.foldl (fun a e => if e.2 > a.2 then e else a) init).2 := by
          rcases h1 with h1 | h1
          · rw [h1]
          · exact le_of_lt h1.2
        exact le_trans (not_lt.1 hx) hge
      · exact h2 e he

theorem bestPair_spec (st : NodeState) :
    (bestPair st = (st.latest_hash, tipHeight st) ∨
      (bestPair st ∈ st.block_heights ∧ tipHeight st < (bestPair st).2)) ∧
    ∀ e ∈ st.block_heights, e.2 ≤ (bestPair st).2 :=
  foldBest_spec st.block_heights (st.latest_hash, tipHeight st)

/-! ### State-frame lemmas -/

@[simp] theorem refresh_blocks (c : Crypto) (st : NodeState) :
    (_refresh_mempool_after_reorg c st).blocks = st.blocks := rfl

@[simp] theorem refresh_block_heights (c : Crypto) (st : NodeState) :
    (_refresh_mempool_after_reorg c st).block_heights = st.block_heights := rfl

@[simp] theorem refresh_block_utxo (c : Crypto) (st : NodeState) :
    (_refresh_mempool_after_reorg c st).block_utxo = st.block_utxo := rfl

@[simp] theorem refresh_latest_hash (c : Crypto) (st : NodeState) :
    (_refresh_mempool_after_reorg c st).latest_hash = st.latest_hash := rfl

@[simp] theorem refresh_connections (c : Crypto) (st : NodeState) :
    (_refresh_mempool_after_reorg c st).connections = st.connections := rfl

@[simp] theorem refresh_public_key (c : Crypto) (st : NodeState) :
    (_refresh_mempool_after_reorg c st).public_key = st.public_key := rfl

/-! ### `validateTxs` and block application -/

theorem validateTxs_eq_apply (c : Crypto) :
    ∀ (txs : List Transaction) (u : Utxo) (spent : List TxID) (u' : Utxo),
      validateTxs c u spent txs = some u' → u' = applyBlockEffects c u txs := by
  intro txs
  induction txs with
  | nil =>
    intro u spent u' h
    simp only [validateTxs, Option.some.injEq] at h
    simp [applyBlockEffects, h]
  | cons tx rest ih =>
    intro u spent u' h
    simp only [validateTxs] at h
    cases hin : tx.input with
    | none =>
      rw [hin] at h
      simp only at h
      simp only [applyBlockEffects, hin]
      exact ih _ _ _ h
    | some inp =>
      rw [hin] at h
      simp only at h
      by_cases hsp : inp ∈ spent
      · rw [if_pos hsp] at h; cases h
      · rw [if_neg hsp] at h
        cases hl : dlookup u inp with
        | none => rw [hl] at h; cases h
        | some prev_tx =>
          rw [hl] at h
          simp only at h
          by_cases hv : c.verify (serialize_for_signature inp tx.output)
              tx.signature prev_tx.output
          · rw [if_pos hv] at h
            simp only [applyBlockEffects, hin]
            exact ih _ _ _ h
          · rw [if_neg hv] at h; cases h

/-! ### `_store_block` characterisation -/

/-- The success state of `_store_block`. -/
def storedState (c : Crypto) (st : NodeState) (block : Block)
    (parent_hash : BlockHash) (new_utxo : Utxo) : NodeState :=
  { st with
      blocks := dinsert st.blocks (get_block_hash c block) block,
      block_heights := dinsert st.block_heights (get_block_hash c block)
        ((dlookup st.block_heights parent_hash).getD 0 + 1),
      block_utxo := dinsert st.block_utxo (get_block_hash c block) new_utxo }

theorem store_block_cases (c : Crypto) (st : NodeState) (block : Block)
    (parent_hash : BlockHash) :
    _store_block c st block parent_hash = (false, st) ∨
      ((_store_block c st block parent_hash).1 = true ∧
        ∃ up new_utxo, dlookup st.block_utxo parent_hash = some up ∧
          block.prev_block_hash = parent_hash ∧
          block.transactions.length ≤ BLOCK_SIZE ∧
          block.transactions.length ≠ 0 ∧
          block.transactions.countP (fun tx => tx.input.isNone) = 1 ∧
          validateTxs c up [] block.transactions = some new_utxo ∧
          (_store_block c st block parent_hash).2 =
            storedState c st block parent_hash new_utxo) := by
  unfold _store_block
  cases hl : dlookup st.block_utxo parent_hash with
  | none => left; simp
  | some up =>
    simp only [hl, Option.isNone_some, Bool.false_eq_true, if_false]
    by_cases hp : block.prev_block_hash ≠ parent_hash
    · left; rw [if_pos hp]
    · rw [if_neg hp]
      push_neg at hp
      by_cases hs : block.transactions.length > BLOCK_SIZE ∨
          block.transactions.length = 0
      · left; rw [if_pos hs]
      · rw [if_neg hs]
        push_neg at hs
        by_cases hc : block.transactions.countP (fun tx => tx.input.isNone) ≠ 1
        · left; rw [if_pos hc]
        · rw [if_neg hc]
          push_neg at hc
          cases hv : validateTxs c (Option.getD (some up) []) []
              block.transactions with
          | none => left; simp
          | some new_utxo =>
            right
            simp only [Option.getD_some] at hv
            simp only [hv]
            refine ⟨by trivial, up, new_utxo, rfl, hp, hs.1, hs.2, hc, hv, ?_⟩
            simp [storedState]

theorem store_block_false_state (c : Crypto) (st : NodeState) (block : Block)
    (parent_hash : BlockHash)
    (h : (_store_block c st block parent_hash).1 = false) :
    (_store_block c st block parent_hash).2 = st := by
  rcases store_block_cases c st block parent_hash with hcase | hcase
  · rw [hcase]
  · rw [hcase.1] at h; cases h

/-- A concrete digest/verify facade for evaluating the theorems on explicit
inputs: an injective digest (prepend a marker byte) and a verifier that
accepts everything. -/
def cSimple : Crypto :=
  { digest := fun m => 7 :: m
    verify := fun _ _ _ => true }

/-- C6 — Validator atomicity: if a validation rule is violated (size outside
`1 ≤ n ≤ BLOCK_SIZE`, not exactly one coinbase, or the per-transaction loop
fails — which is exactly a within-block double spend, an input missing from
the working snapshot, or a signature that fails to verify), then
`_store_block` returns `False` and the node state — block map, height index,
every stored snapshot including the parent's, and the tip — is exactly as
before the call. -/
theorem store_block_atomic_rejection (c : Crypto) (st : NodeState)
    (block : Block) (parent_hash : BlockHash)
    (hviol : BLOCK_SIZE < block.transactions.length ∨
      block.transactions.length = 0 ∨
      block.transactions.countP (fun tx => tx.input.isNone) ≠ 1 ∨
      validateTxs c ((dlookup st.block_utxo parent_hash).getD []) []
        block.transactions = none) :
    _store_block c st block parent_hash = (false, st) := by
  rcases store_block_cases c st block parent_hash with hcase | hcase
  · exact hcase
  · obtain ⟨-, up, new_utxo, hup, -, hlen, hne, hcp, hval, -⟩ := hcase
    rcases hviol with h | h | h | h
    · exact absurd hlen (not_le_of_lt h)
    · exact absurd h hne
    · exact absurd hcp h
    · rw [hup] at h
      simp only [Option.getD_some] at h
      rw [hval] at h
      cases h

/-- Witness: `_store_block` rejects an empty block and leaves a fresh node
untouched. -/
theorem store_block_atomic_rejection_witness :
    _store_block cSimple (initState []) ⟨GENESIS_BLOCK_PREV, []⟩
      GENESIS_BLOCK_PREV = (false, initState []) :=
  store_block_atomic_rejection cSimple (initState []) ⟨GENESIS_BLOCK_PREV, []⟩
    GENESIS_BLOCK_PREV (Or.inr (Or.inl rfl))

/-- C2 — Mempool admission: with `u` the current tip's snapshot,
`add_transaction_to_mempool` returns `False` iff the transaction is a
coinbase, or already in the mempool by field equality, or its input is
already consumed by a pending entry, or its input is not a key of `u`, or
its signature fails to verify against the producing transaction's output;
a rejection leaves the state unchanged, and an admission appends the
transaction to the mempool and records its input. -/
theorem add_transaction_to_mempool_spec (c : Crypto) (st : NodeState)
    (tx : Transaction) (u : Utxo)
    (hu : dlookup st.block_utxo st.latest_hash = some u) :
    ((add_transaction_to_mempool c st tx).1 = false ↔
      tx.input = none ∨ tx ∈ st.mempool ∨
      (∃ i, tx.input = some i ∧ i ∈ st.mempool_inputs) ∨
      (∃ i, tx.input = some i ∧ dlookup u i = none) ∨
      (∃ i prev_tx, tx.input = some i ∧ dlookup u i = some prev_tx ∧
        ¬ c.verify (serialize_for_signature i tx.output) tx.signature
          prev_tx.output)) ∧
    ((add_transaction_to_mempool c st tx).1 = false →
      (add_transaction_to_mempool c st tx).2 = st) ∧
    ((add_transaction_to_mempool c st tx).1 = true →
      ∃ i, tx.input = some i ∧
        (add_transaction_to_mempool c st tx).2 =
          { st with mempool := st.mempool ++ [tx],
                    mempool_inputs := st.mempool_inputs ++ [i] }) := by
  cases hin : tx.input with
  | none =>
    have hr : add_transaction_to_mempool c st tx = (false, st) := by
      unfold add_transaction_to_mempool
      rw [hin]
    rw [hr]
    exact ⟨⟨fun _ => Or.inl rfl, fun _ => rfl⟩, fun _ => rfl, fun h => by cases h⟩
  | some i =>
    have hrw : add_transaction_to_mempool c st tx =
        (if tx ∈ st.mempool then (false, st)
        else if i ∈ st.mempool_inputs then (false, st)
        else
          match dlookup u i with
          | none => (false, st)
          | some prev_tx =>
            if c.verify (serialize_for_signature i tx.output) tx.signature
                prev_tx.output then
              (true, { st with mempool := st.mempool ++ [tx],
                               mempool_inputs := st.mempool_inputs ++ [i] })
            else (false, st)) := by
      unfold add_transaction_to_mempool
      rw [hin]
      simp only [hu, Option.getD_some]
    by_cases hmem : tx ∈ st.mempool
    · have hr : add_transaction_to_mempool c st tx = (false, st) := by
        rw [hrw, if_pos hmem]
      rw [hr]
      exact ⟨⟨fun _ => Or.inr (Or.inl hmem), fun _ => rfl⟩, fun _ => rfl,
        fun h => by cases h⟩
    · by_cases hinp : i ∈ st.mempool_inputs
      · have hr : add_transaction_to_mempool c st tx = (false, st) := by
          rw [hrw, if_neg hmem, if_pos hinp]
        rw [hr]
        exact ⟨⟨fun _ => Or.inr (Or.inr (Or.inl ⟨i, rfl, hinp⟩)), fun _ => rfl⟩,
          fun _ => rfl, fun h => by cases h⟩
      · cases hl : dlookup u i with
        | none =>
          have hr : add_transaction_to_mempool c st tx = (false, st) := by
            rw [hrw, if_neg hmem, if_neg hinp, hl]
          rw [hr]
          exact ⟨⟨fun _ => Or.inr (Or.inr (Or.inr (Or.inl ⟨i, rfl, hl⟩))),
            fun _ => rfl⟩, fun _ => rfl, fun h => by cases h⟩
        | some prev_tx =>
          by_cases hv : c.verify (serialize_for_signature i tx.output)
              tx.signature prev_tx.output
          · have hr : add_transaction_to_mempool c st tx =
                (true, { st with mempool := st.mempool ++ [tx],
                                 mempool_inputs := st.mempool_inputs ++ [i] }) := by
              rw [hrw, if_neg hmem, if_neg hinp, hl]
              simp only [if_pos hv]
            rw [hr]
            refine ⟨⟨(fun h => by cases h), ?_⟩, (fun h => by cases h),
              (fun _ => ⟨i, rfl, rfl⟩)⟩
            rintro (h | h | ⟨j, hj, hjm⟩ | ⟨j, hj, hjl⟩ | ⟨j, ptx, hj, hjl, hjv⟩)
            · cases h
            · exact absurd h hmem
            · cases hj; exact absurd hjm hinp
            · cases hj; rw [hl] at hjl; cases hjl
            · cases hj; rw [hl] at hjl; cases hjl
              exact absurd hv hjv
          · have hr : add_transaction_to_mempool c st tx = (false, st) := by
              rw [hrw, if_neg hmem, if_neg hinp, hl]
              simp only [if_neg hv]
            rw [hr]
            exact ⟨⟨fun _ => Or.inr (Or.inr (Or.inr (Or.inr
              ⟨i, prev_tx, rfl, hl, hv⟩))), fun _ => rfl⟩, fun _ => rfl,
              fun h => by cases h⟩

/-- Witness: a coinbase transaction is rejected by a fresh node, unchanged. -/
theorem add_transaction_to_mempool_spec_witness :
    (add_transaction_to_mempool cSimple (initState []) ⟨[], none, []⟩).1 = false ∧
    (add_transaction_to_mempool cSimple (initState []) ⟨[], none, []⟩).2 =
      initState [] := by
  have h := add_transaction_to_mempool_spec cSimple (initState [])
    ⟨[], none, []⟩ [] (by decide)
  exact ⟨h.1.mpr (Or.inl rfl), h.2.1 (h.1.mpr (Or.inl rfl))⟩

/-- C3 — Chain-selector tie-stickiness: if no stored height strictly exceeds
the incumbent tip's height (in particular on equal maximal heights, as for
two freshly connected nodes with height-`h` tips over disjoint histories),
the chain selector leaves the whole state — tip included — unchanged; and
whenever the tip does change, some stored block is strictly higher than the
old tip and the mempool is reconciled against the new tip's snapshot. -/
theorem adopt_best_chain_tie_stickiness (c : Crypto) (st : NodeState) :
    ((∀ e ∈ st.block_heights, e.2 ≤ tipHeight st) →
      _adopt_best_chain_if_needed c st = st) ∧
    ((_adopt_best_chain_if_needed c st).latest_hash ≠ st.latest_hash →
      (∃ e ∈ st.block_heights, tipHeight st < e.2) ∧
      _adopt_best_chain_if_needed c st =
        _refresh_mempool_after_reorg c
          { st with latest_hash :=
              (_adopt_best_chain_if_needed c st).latest_hash }) := by
  obtain ⟨hbest, hmax⟩ := bestPair_spec st
  constructor
  · intro hle
    rcases hbest with hb | hb
    · unfold _adopt_best_chain_if_needed
      rw [hb]
      simp
    · exact absurd (hle _ hb.1) (not_le_of_lt hb.2)
  · intro hch
    have hne : (bestPair st).1 ≠ st.latest_hash := by
      intro he
      apply hch
      unfold _adopt_best_chain_if_needed
      rw [if_neg (by simpa using he)]
    have hb : bestPair st ∈ st.block_heights ∧ tipHeight st < (bestPair st).2 := by
      rcases hbest with hb | hb
      · exact absurd (congrArg Prod.fst hb) hne
      · exact hb
    have hadopt : _adopt_best_chain_if_needed c st =
        _refresh_mempool_after_reorg c { st with latest_hash := (bestPair st).1 } := by
      unfold _adopt_best_chain_if_needed
      rw [if_pos hne]
    have hlat : (_adopt_best_chain_if_needed c st).latest_hash = (bestPair st).1 := by
      rw [hadopt, refresh_latest_hash]
    exact ⟨⟨bestPair st, hb.1, hb.2⟩, by rw [hlat, hadopt]⟩

/-- Witness: the chain selector is the identity on a fresh node (no stored
height exceeds the genesis tip's height 0). -/
theorem adopt_best_chain_tie_stickiness_witness :
    _adopt_best_chain_if_needed cSimple (initState []) = initState [] :=
  (adopt_best_chain_tie_stickiness cSimple (initState [])).1 (by decide)

/-- C8 — Tagged txid preimage: `get_txid` digests exactly the spec's tagged
serialisation (tag byte `0x00`/`0x01`, then the input when present, then
output, then signature); a coinbase preimage can never equal a non-coinbase
preimage (the tag byte differs); and the block id digests the concatenation
of the previous hash with these same tagged txids — the one `get_txid` used
by `validateTxs`, `_store_block` and `get_block_hash` throughout this
development. -/
theorem txid_tagged_preimage :
    (∀ (c : Crypto) (t : Transaction), get_txid c t = txidSpec c t) ∧
    (∀ t₁ t₂ : Transaction, t₁.input = none → t₂.input ≠ none →
      txPreimage t₁ ≠ txPreimage t₂) ∧
    (∀ (c : Crypto) (b : Block), get_block_hash c b =
      c.digest (b.prev_block_hash ++
        (b.transactions.map (fun t => get_txid c t)).flatten)) := by
  refine ⟨?_, ?_, fun c b => rfl⟩
  · intro c t
    unfold get_txid txidSpec txPreimage
    cases ht : t.input with
    | none => simp
    | some i => simp
  · intro t₁ t₂ h1 h2 heq
    unfold txPreimage at heq
    rw [h1] at heq
    cases ht : t₂.input with
    | none => exact h2 ht
    | some i =>
      rw [ht] at heq
      cases heq

/-- Witness: the tagged preimages of a concrete coinbase and a concrete
spending transaction differ. -/
theorem txid_tagged_preimage_witness :
    txPreimage ⟨[], none, []⟩ ≠ txPreimage ⟨[], some [], []⟩ :=
  txid_tagged_preimage.2.1 ⟨[], none, []⟩ ⟨[], some [], []⟩ rfl (by decide)

/-! ### The gossip pull-walk (`_fetch_and_store_chain`) -/

/-- The ancestor-chain shape of a pending list (oldest first): the first
block's parent is the anchor, and each later block's parent is the hash of
the entry before it. -/
def chainFrom : BlockHash → List (BlockHash × Block) → Prop
  | _, [] => True
  | x, e :: rest => e.2.prev_block_hash = x ∧ chainFrom e.1 rest

theorem fetchWalk_sound (c : Crypto) (blocks : List (BlockHash × Block))
    (sender : BlockHash → Option Block) :
    ∀ (fuel : Nat) (cur : BlockHash) (acc pending : List (BlockHash × Block)),
      fetchWalk c blocks sender fuel cur acc = some pending →
      ∀ e ∈ pending, e ∈ acc ∨
        (sender e.1 = some e.2 ∧ get_block_hash c e.2 = e.1 ∧
          dlookup blocks e.1 = none ∧ e.1 ≠ GENESIS_BLOCK_PREV) := by
  intro fuel
  induction fuel with
  | zero => intro cur acc pending h; cases h
  | succ n ih =>
    intro cur acc pending h
    simp only [fetchWalk] at h
    by_cases hknown : (dlookup blocks cur).isSome ∨ cur = GENESIS_BLOCK_PREV
    · rw [if_pos hknown] at h
      simp only [Option.some.injEq] at h
      subst h
      intro e he
      exact Or.inl he
    · rw [if_neg hknown] at h
      cases hs : sender cur with
      | none => rw [hs] at h; simp only at h; cases h
      | some b =>
        rw [hs] at h
        simp only at h
        by_cases hh : get_block_hash c b = cur
        · rw [if_pos hh] at h
          intro e he
          rcases ih _ _ _ h e he with hacc | hprop
          · rcases List.mem_cons.1 hacc with rfl | hacc
            · push_neg at hknown
              exact Or.inr ⟨hs, hh, Option.not_isSome_iff_eq_none.1 hknown.1,
                hknown.2⟩
            · exact Or.inl hacc
          · exact Or.inr hprop
        · rw [if_neg hh] at h
          cases h

theorem fetchWalk_mismatch (c : Crypto) (blocks : List (BlockHash × Block))
    (sender : BlockHash → Option Block) (fuel : Nat) (cur : BlockHash)
    (acc : List (BlockHash × Block))
    (hunk : dlookup blocks cur = none) (hgen : cur ≠ GENESIS_BLOCK_PREV)
    (hbad : sender cur = none ∨
      ∃ b, sender cur = some b ∧ get_block_hash c b ≠ cur) :
    fetchWalk c blocks sender fuel cur acc = none := by
  cases fuel with
  | zero => rfl
  | succ n =>
    simp only [fetchWalk]
    rw [if_neg (by simp [hunk, hgen])]
    rcases hbad with hb | ⟨b, hb, hbh⟩
    · rw [hb]
    · rw [hb]
      simp only
      rw [if_neg hbh]

theorem fetchWalk_chain (c : Crypto) (blocks : List (BlockHash × Block))
    (sender : BlockHash → Option Block) :
    ∀ (fuel : Nat) (cur : BlockHash) (acc pending : List (BlockHash × Block)),
      chainFrom cur acc →
      fetchWalk c blocks sender fuel cur acc = some pending →
      ∃ stop, ((dlookup blocks stop).isSome ∨ stop = GENESIS_BLOCK_PREV) ∧
        chainFrom stop pending := by
  intro fuel
  induction fuel with
  | zero => intro cur acc pending _ h; cases h
  | succ n ih =>
    intro cur acc pending hch h
    simp only [fetchWalk] at h
    by_cases hknown : (dlookup blocks cur).isSome ∨ cur = GENESIS_BLOCK_PREV
    · rw [if_pos hknown] at h
      simp only [Option.some.injEq] at h
      subst h
      exact ⟨cur, hknown, hch⟩
    · rw [if_neg hknown] at h
      cases hs : sender cur with
      | none => rw [hs] at h; simp only at h; cases h
      | some b =>
        rw [hs] at h
        simp only at h
        by_cases hh : get_block_hash c b = cur
        · rw [if_pos hh] at h
          refine ih _ _ _ ?_ h
          show b.prev_block_hash = b.prev_block_hash ∧ chainFrom cur acc
          exact ⟨rfl, hch⟩
        · rw [if_neg hh] at h
          cases h

theorem replayPending_append (c : Crypto) :
    ∀ (l1 l2 : List (BlockHash × Block)) (st : NodeState),
      replayPending c st (l1 ++ l2) =
        replayPending c (replayPending c st l1) l2 := by
  intro l1
  induction l1 with
  | nil => intro l2 st; rfl
  | cons e rest ih =>
    intro l2 st
    obtain ⟨h, blk⟩ := e
    simp only [List.cons_append, replayPending]
    by_cases hp : (dlookup st.block_utxo blk.prev_block_hash).isNone
    · rw [if_pos hp, if_pos hp]
      exact ih l2 st
    · rw [if_neg hp, if_neg hp]
      exact ih l2 _

theorem replay_cascade (c : Crypto) :
    ∀ (rest : List (BlockHash × Block)) (st : NodeState) (hook : BlockHash),
      chainFrom hook rest →
      dlookup st.block_utxo hook = none →
      (∀ e ∈ rest, dlookup st.block_utxo e.1 = none) →
      replayPending c st rest = st := by
  intro rest
  induction rest with
  | nil => intro st hook _ _ _; rfl
  | cons e rest' ih =>
    intro st hook hch hhook hall
    obtain ⟨hprev, hch'⟩ := hch
    obtain ⟨h, blk⟩ := e
    simp only at hprev hch'
    simp only [replayPending]
    rw [hprev, hhook]
    simp only [Option.isNone_none, if_true]
    exact ih st h hch' (hall (h, blk) (List.mem_cons_self _ _))
      (fun e' he' => hall e' (List.mem_cons_of_mem _ he'))

/-- When no stored height strictly exceeds the tip's, the chain selector is
the identity. -/
theorem adopt_eq_self_of_max (c : Crypto) (st : NodeState)
    (hle : ∀ e ∈ st.block_heights, e.2 ≤ tipHeight st) :
    _adopt_best_chain_if_needed c st = st := by
  obtain ⟨hbest, -⟩ := bestPair_spec st
  rcases hbest with hb | hb
  · unfold _adopt_best_chain_if_needed
    rw [hb]
    simp
  · exact absurd (hle _ hb.1) (not_le_of_lt hb.2)

theorem store_block_frame (c : Crypto) (st : NodeState) (block : Block)
    (p : BlockHash) :
    (_store_block c st block p).2.mempool = st.mempool ∧
    (_store_block c st block p).2.mempool_inputs = st.mempool_inputs ∧
    (_store_block c st block p).2.latest_hash = st.latest_hash ∧
    (_store_block c st block p).2.connections = st.connections ∧
    (_store_block c st block p).2.public_key = st.public_key := by
  rcases store_block_cases c st block p with h | h
  · rw [h]
    exact ⟨rfl, rfl, rfl, rfl, rfl⟩
  · obtain ⟨-, up, nu, -, -, -, -, -, -, hs⟩ := h
    rw [hs]
    exact ⟨rfl, rfl, rfl, rfl, rfl⟩

theorem replay_frame (c : Crypto) :
    ∀ (pending : List (BlockHash × Block)) (st : NodeState),
    (replayPending c st pending).mempool = st.mempool ∧
    (replayPending c st pending).mempool_inputs = st.mempool_inputs ∧
    (replayPending c st pending).latest_hash = st.latest_hash ∧
    (replayPending c st pending).connections = st.connections ∧
    (replayPending c st pending).public_key = st.public_key := by
  intro pending
  induction pending with
  | nil => intro st; exact ⟨rfl, rfl, rfl, rfl, rfl⟩
  | cons e rest ih =>
    intro st
    obtain ⟨h, blk⟩ := e
    simp only [replayPending]
    by_cases hp : (dlookup st.block_utxo blk.prev_block_hash).isNone
    · rw [if_pos hp]
      exact ih st
    · rw [if_neg hp]
      obtain ⟨h1, h2, h3, h4, h5⟩ := ih (_store_block c st blk blk.prev_block_hash).2
      obtain ⟨g1, g2, g3, g4, g5⟩ := store_block_frame c st blk blk.prev_block_hash
      exact ⟨h1.trans g1, h2.trans g2, h3.trans g3, h4.trans g4, h5.trans g5⟩

theorem adopt_frame (c : Crypto) (st : NodeState) :
    (_adopt_best_chain_if_needed c st).blocks = st.blocks ∧
    (_adopt_best_chain_if_needed c st).block_heights = st.block_heights ∧
    (_adopt_best_chain_if_needed c st).block_utxo = st.block_utxo ∧
    (_adopt_best_chain_if_needed c st).connections = st.connections ∧
    (_adopt_best_chain_if_needed c st).public_key = st.public_key := by
  unfold _adopt_best_chain_if_needed
  by_cases hc : (bestPair st).1 ≠ st.latest_hash
  · rw [if_pos hc]
    exact ⟨rfl, rfl, rfl, rfl, rfl⟩
  · rw [if_neg hc]
    exact ⟨rfl, rfl, rfl, rfl, rfl⟩

/-- C5 — Pull-walk refusal and maximal-valid-prefix storage:
(1) the walk aborts at any position where the sender fails or returns a
block whose recomputed id differs from the requested id; (2)–(3) an aborted
walk stores none of the fetched blocks and leaves the state — tip included —
unchanged; (4) every block of a completed walk was returned by the sender
for exactly its recomputed id (mismatched blocks are never replayed), was
previously unknown, and is not the genesis sentinel; (5) once one block of
the (oldest-first) pending chain fails — parent snapshot absent or
validation rejected — no later block of that walk is stored and the state at
the failure point (with all earlier valid ancestors already stored) is kept
exactly; with `replayPending_append`, the replay of the full queue is the
replay of the successful prefix. -/
theorem fetch_and_store_chain_spec (c : Crypto) :
    (∀ (blocks : List (BlockHash × Block)) (sender : BlockHash → Option Block)
        (fuel : Nat) (cur : BlockHash) (acc : List (BlockHash × Block)),
      dlookup blocks cur = none → cur ≠ GENESIS_BLOCK_PREV →
      (sender cur = none ∨
        ∃ b, sender cur = some b ∧ get_block_hash c b ≠ cur) →
      fetchWalk c blocks sender fuel cur acc = none) ∧
    (∀ (st : NodeState) (sender : BlockHash → Option Block) (fuel : Nat)
        (h : BlockHash),
      fetchWalk c st.blocks sender fuel h [] = none →
      _fetch_and_store_chain c st sender fuel h = st) ∧
    (∀ (st : NodeState) (sender : BlockHash → Option Block) (fuel : Nat)
        (h : BlockHash),
      fetchWalk c st.blocks sender fuel h [] = none →
      (∀ e ∈ st.block_heights, e.2 ≤ tipHeight st) →
      notifyState c st sender fuel h = st) ∧
    (∀ (blocks : List (BlockHash × Block)) (sender : BlockHash → Option Block)
        (fuel : Nat) (cur : BlockHash) (pending : List (BlockHash × Block)),
      fetchWalk c blocks sender fuel cur [] = some pending →
      ∀ e ∈ pending, sender e.1 = some e.2 ∧ get_block_hash c e.2 = e.1 ∧
        dlookup blocks e.1 = none ∧ e.1 ≠ GENESIS_BLOCK_PREV) ∧
    (∀ (st1 : NodeState) (h : BlockHash) (b : Block)
        (post : List (BlockHash × Block)),
      chainFrom h post →
      ((dlookup st1.block_utxo b.prev_block_hash).isNone ∨
        (_store_block c st1 b b.prev_block_hash).1 = false) →
      dlookup st1.block_utxo h = none →
      (∀ e ∈ post, dlookup st1.block_utxo e.1 = none) →
      replayPending c st1 ((h, b) :: post) = st1) := by
  refine ⟨?_, ?_, ?_, ?_, ?_⟩
  · intro blocks sender fuel cur acc hunk hgen hbad
    exact fetchWalk_mismatch c blocks sender fuel cur acc hunk hgen hbad
  · intro st sender fuel h hnone
    unfold _fetch_and_store_chain
    rw [hnone]
  · intro st sender fuel h hnone hle
    unfold notifyState
    by_cases hcond : (dlookup st.blocks h).isNone ∧ h ≠ GENESIS_BLOCK_PREV
    · rw [if_pos hcond]
      have hfs : _fetch_and_store_chain c st sender fuel h = st := by
        unfold _fetch_and_store_chain
        rw [hnone]
      rw [hfs]
      exact adopt_eq_self_of_max c st hle
    · rw [if_neg hcond]
      exact adopt_eq_self_of_max c st hle
  · intro blocks sender fuel cur pending hp e he
    rcases fetchWalk_sound c blocks sender fuel cur [] pending hp e he with hacc | hprop
    · cases hacc
    · exact hprop
  · intro st1 h b post hch hfail hh hall
    simp only [replayPending]
    rcases hfail with hfail | hfail
    · rw [if_pos hfail]
      exact replay_cascade c post st1 h hch hh hall
    · by_cases hp : (dlookup st1.block_utxo b.prev_block_hash).isNone
      · rw [if_pos hp]
        exact replay_cascade c post st1 h hch hh hall
      · rw [if_neg hp]
        rw [store_block_false_state c st1 b b.prev_block_hash hfail]
        exact replay_cascade c post st1 h hch hh hall

/-- Witness: a pull-walk whose sender fails immediately is abandoned and the
fresh node is unchanged. -/
theorem fetch_and_store_chain_spec_witness :
    _fetch_and_store_chain cSimple (initState []) (fun _ => none) 1 [1] =
      initState [] :=
  (fetch_and_store_chain_spec cSimple).2.1 (initState []) (fun _ => none) 1 [1]
    (by decide)

/-! ### C4 — gossip quiescence (code bug)

The claim states that `notify_of_block` on an already-known id equal to the
current tip performs no further outbound calls.  The source has no such fast
path: the re-broadcast branch (`node.py` lines 120–123) fires whenever the
tip equals the announced id — also when the id was already known — so every
connection other than the sender receives a fresh `notify_of_block`.  In a
cycle of three mutually connected nodes sharing the same tip this recursion
never terminates.  The following evaluation exhibits the divergence: a node
that mined one block (tip = that block's hash, block stored) and has
connections `[1, 2]`, notified of its own tip by peer 1, issues no
`get_block` requests but re-broadcasts to peer 2. -/

def bugSig : Sgn := List.replicate 64 5

/-- A node that mined one block and is connected to peers 1 and 2. -/
def bugState : NodeState :=
  connectState (connectState (mineState cSimple (initState []) bugSig) 1) 2

/-- C4 — the announced id is already stored and equals the tip, the walk
issues no requests, yet the node re-broadcasts to peer 2 (the claim says no
outbound calls at all). -/
theorem notify_known_tip_rebroadcast_bug :
    (dlookup bugState.blocks bugState.latest_hash).isSome = true ∧
    notifyRequests cSimple bugState (fun _ => none) 5 bugState.latest_hash = [] ∧
    notifyRebroadcastTargets cSimple bugState 1 (fun _ => none) 5
      bugState.latest_hash = [2] := by decide

/-! ### Invariant transfer along state frames -/

theorem storeWF_transfer {st st' : NodeState} (h : StoreWF st)
    (hb : st'.blocks = st.blocks) (hh : st'.block_heights = st.block_heights)
    (hu : st'.block_utxo = st.block_utxo) : StoreWF st' := by
  constructor
  · rw [hb]; exact h.ndBlocks
  · rw [hh]; exact h.ndHeights
  · rw [hu]; exact h.ndUtxo
  · rw [hh]; exact h.genHeight
  · rw [hu]; exact h.genUtxo
  · rw [hb]; exact h.genNotBlock
  · rw [hh, hb]; exact h.heightsSub
  · rw [hu, hb]; exact h.utxoSub
  · rw [hb, hh]; exact h.blocksHeights
  · rw [hb, hu]; exact h.blocksUtxo

theorem chainConsist_transfer {c : Crypto} {st st' : NodeState}
    (h : ChainConsist c st)
    (hb : st'.blocks = st.blocks) (hh : st'.block_heights = st.block_heights)
    (hu : st'.block_utxo = st.block_utxo) : ChainConsist c st' := by
  constructor
  rw [hb, hh, hu]
  exact h.consist

theorem tipMax_transfer {st st' : NodeState} (h : TipMax st)
    (hh : st'.block_heights = st.block_heights)
    (hl : st'.latest_hash = st.latest_hash) : TipMax st' := by
  have ht : tipHeight st' = tipHeight st := by
    unfold tipHeight
    rw [hh, hl]
  constructor
  · rw [hh, hl]; exact h.tipMem
  · rw [hh, ht]; exact h.maxAt

theorem mempoolInv_transfer {st st' : NodeState} (h : MempoolInv st)
    (hm : st'.mempool = st.mempool)
    (hi : st'.mempool_inputs = st.mempool_inputs) : MempoolInv st' := by
  show MpSync st'.mempool st'.mempool_inputs
  rw [hm, hi]
  exact h

theorem tipHeight_congr {st st' : NodeState}
    (hh : st'.block_heights = st.block_heights)
    (hl : st'.latest_hash = st.latest_hash) : tipHeight st' = tipHeight st := by
  unfold tipHeight
  rw [hh, hl]

/-! ### Admission case analysis (no assumption on the tip snapshot) -/

theorem add_tx_cases (c : Crypto) (st : NodeState) (tx : Transaction) :
    (add_transaction_to_mempool c st tx).2 = st ∨
    ∃ i, tx.input = some i ∧ i ∉ st.mempool_inputs ∧
      (add_transaction_to_mempool c st tx).2 =
        { st with mempool := st.mempool ++ [tx],
                  mempool_inputs := st.mempool_inputs ++ [i] } := by
  unfold add_transaction_to_mempool
  cases hin : tx.input with
  | none => exact Or.inl rfl
  | some i =>
    simp only
    by_cases hmem : tx ∈ st.mempool
    · rw [if_pos hmem]
      exact Or.inl rfl
    · rw [if_neg hmem]
      by_cases hinp : i ∈ st.mempool_inputs
      · rw [if_pos hinp]
        exact Or.inl rfl
      · rw [if_neg hinp]
        cases hl : dlookup ((dlookup st.block_utxo st.latest_hash).getD []) i with
        | none => exact Or.inl rfl
        | some prev_tx =>
          simp only
          by_cases hv : c.verify (serialize_for_signature i tx.output)
              tx.signature prev_tx.output
          · rw [if_pos hv]
            exact Or.inr ⟨i, rfl, hinp, rfl⟩
          · rw [if_neg hv]
            exact Or.inl rfl

/-! ### `_store_block` preserves the store invariants -/

theorem store_block_lookup_ne (c : Crypto) (st : NodeState) (block : Block)
    (p : BlockHash) (k : BlockHash) (hk : k ≠ get_block_hash c block) :
    dlookup (_store_block c st block p).2.blocks k = dlookup st.blocks k ∧
    dlookup (_store_block c st block p).2.block_heights k =
      dlookup st.block_heights k ∧
    dlookup (_store_block c st block p).2.block_utxo k =
      dlookup st.block_utxo k := by
  rcases store_block_cases c st block p with h | h
  · rw [h]
    exact ⟨rfl, rfl, rfl⟩
  · obtain ⟨-, up, nu, -, -, -, -, -, -, hs⟩ := h
    rw [hs]
    simp only [storedState]
    exact ⟨dlookup_dinsert_ne _ _ hk, dlookup_dinsert_ne _ _ hk,
      dlookup_dinsert_ne _ _ hk⟩

theorem store_block_heights_mono (c : Crypto) (st : NodeState) (block : Block)
    (p : BlockHash) (k : BlockHash) (hk : k ∈ dkeys st.block_heights) :
    k ∈ dkeys (_store_block c st block p).2.block_heights := by
  rcases store_block_cases c st block p with h | h
  · rw [h]; exact hk
  · obtain ⟨-, up, nu, -, -, -, -, -, -, hs⟩ := h
    rw [hs]
    simp only [storedState]
    exact (mem_dkeys_dinsert _ _ _ _).2 (Or.inr hk)

theorem store_block_preserves (c : Crypto) (st : NodeState) (block : Block)
    (parent_hash : BlockHash) (hwf : StoreWF st) (hcc : ChainConsist c st)
    (hfresh : dlookup st.block_utxo (get_block_hash c block) = none) :
    StoreWF (_store_block c st block parent_hash).2 ∧
    ChainConsist c (_store_block c st block parent_hash).2 := by
  rcases store_block_cases c st block parent_hash with hcase | hcase
  · rw [hcase]
    exact ⟨hwf, hcc⟩
  · obtain ⟨-, up, nu, hup, hprev, -, -, -, hval, hstate⟩ := hcase
    rw [hstate]
    have hnotU : get_block_hash c block ∉ dkeys st.block_utxo :=
      (dlookup_eq_none_iff _ _).1 hfresh
    have hgen : get_block_hash c block ≠ GENESIS_BLOCK_PREV := by
      intro he
      exact hnotU (he ▸ mem_dkeys_of_dlookup hwf.genUtxo)
    have hnotB : get_block_hash c block ∉ dkeys st.blocks :=
      fun hb => hnotU (hwf.blocksUtxo _ hb)
    have hnotH : get_block_hash c block ∉ dkeys st.block_heights := by
      intro hh
      rcases hwf.heightsSub _ hh with he | hb
      · exact hgen he
      · exact hnotB hb
    have hpmemU : parent_hash ∈ dkeys st.block_utxo := mem_dkeys_of_dlookup hup
    have hpH : ∃ hp, dlookup st.block_heights parent_hash = some hp := by
      rcases hwf.utxoSub _ hpmemU with he | hb
      · exact ⟨0, he ▸ hwf.genHeight⟩
      · exact Option.isSome_iff_exists.1
          (dlookup_isSome_of_mem (hwf.blocksHeights _ hb))
    obtain ⟨hp, hhp⟩ := hpH
    have hpne : parent_hash ≠ get_block_hash c block := by
      intro he
      exact hnotU (he ▸ hpmemU)
    constructor
    · constructor
      · simp only [storedState]
        exact nodup_dkeys_dinsert _ _ _ hwf.ndBlocks
      · simp only [storedState]
        exact nodup_dkeys_dinsert _ _ _ hwf.ndHeights
      · simp only [storedState]
        exact nodup_dkeys_dinsert _ _ _ hwf.ndUtxo
      · simp only [storedState]
        rw [dlookup_dinsert_ne _ _ (fun he => hgen he.symm)]
        exact hwf.genHeight
      · simp only [storedState]
        rw [dlookup_dinsert_ne _ _ (fun he => hgen he.symm)]
        exact hwf.genUtxo
      · simp only [storedState]
        intro hmem
        rcases (mem_dkeys_dinsert _ _ _ _).1 hmem with he | hmem
        · exact hgen he.symm
        · exact hwf.genNotBlock hmem
      · simp only [storedState]
        intro k hk
        rcases (mem_dkeys_dinsert _ _ _ _).1 hk with rfl | hk
        · exact Or.inr ((mem_dkeys_dinsert _ _ _ _).2 (Or.inl rfl))
        · rcases hwf.heightsSub k hk with he | hb
          · exact Or.inl he
          · exact Or.inr ((mem_dkeys_dinsert _ _ _ _).2 (Or.inr hb))
      · simp only [storedState]
        intro k hk
        rcases (mem_dkeys_dinsert _ _ _ _).1 hk with rfl | hk
        · exact Or.inr ((mem_dkeys_dinsert _ _ _ _).2 (Or.inl rfl))
        · rcases hwf.utxoSub k hk with he | hb
          · exact Or.inl he
          · exact Or.inr ((mem_dkeys_dinsert _ _ _ _).2 (Or.inr hb))
      · simp only [storedState]
        intro k hk
        rcases (mem_dkeys_dinsert _ _ _ _).1 hk with rfl | hk
        · exact (mem_dkeys_dinsert _ _ _ _).2 (Or.inl rfl)
        · exact (mem_dkeys_dinsert _ _ _ _).2 (Or.inr (hwf.blocksHeights k hk))
      · simp only [storedState]
        intro k hk
        rcases (mem_dkeys_dinsert _ _ _ _).1 hk with rfl | hk
        · exact (mem_dkeys_dinsert _ _ _ _).2 (Or.inl rfl)
        · exact (mem_dkeys_dinsert _ _ _ _).2 (Or.inr (hwf.blocksUtxo k hk))
    · constructor
      simp only [storedState]
      intro e he
      rcases mem_dinsert he with heq | he
      · subst heq
        refine ⟨rfl, ⟨hp, ?_, ?_⟩, up, nu, ?_, hval, ?_⟩
        · rw [hprev, dlookup_dinsert_ne _ _ hpne]
          exact hhp
        · rw [dlookup_dinsert_self, hhp]
          rfl
        · rw [hprev, dlookup_dinsert_ne _ _ hpne]
          exact hup
        · rw [dlookup_dinsert_self]
      · obtain ⟨hrt, ⟨hp', h1, h2⟩, up', nu', g1, g2, g3⟩ := hcc.consist e he
        have he1 : e.1 ≠ get_block_hash c block := by
          intro heq
          exact hnotB (heq ▸ List.mem_map_of_mem Prod.fst he)
        have hep : e.2.prev_block_hash ≠ get_block_hash c block := by
          intro heq
          exact hnotH (heq ▸ mem_dkeys_of_dlookup h1)
        refine ⟨hrt, ⟨hp', ?_, ?_⟩, up', nu', ?_, g2, ?_⟩
        · rw [dlookup_dinsert_ne _ _ hep]
          exact h1
        · rw [dlookup_dinsert_ne _ _ he1]
          exact h2
        · rw [dlookup_dinsert_ne _ _ hep]
          exact g1
        · rw [dlookup_dinsert_ne _ _ he1]
          exact g3

/-! ### Replay preserves the store invariants -/

theorem replay_preserves (c : Crypto) :
    ∀ (pending : List (BlockHash × Block)) (st : NodeState),
      StoreWF st → ChainConsist c st →
      (∀ e ∈ pending, get_block_hash c e.2 = e.1 ∧
        dlookup st.block_utxo e.1 = none) →
      (pending.map Prod.fst).Nodup →
      StoreWF (replayPending c st pending) ∧
      ChainConsist c (replayPending c st pending) ∧
      (∀ k, k ∉ pending.map Prod.fst →
        dlookup (replayPending c st pending).block_heights k =
          dlookup st.block_heights k) ∧
      (∀ k, k ∈ dkeys st.block_heights →
        k ∈ dkeys (replayPending c st pending).block_heights) := by
  intro pending
  induction pending with
  | nil =>
    intro st hwf hcc _ _
    exact ⟨hwf, hcc, fun k _ => rfl, fun k hk => hk⟩
  | cons e rest ih =>
    intro st hwf hcc hall hnd
    obtain ⟨h, blk⟩ := e
    obtain ⟨hhash, hunk⟩ := hall (h, blk) (List.mem_cons_self _ _)
    simp only at hhash hunk
    simp only [List.map_cons, List.nodup_cons] at hnd
    simp only [replayPending]
    by_cases hp : (dlookup st.block_utxo blk.prev_block_hash).isNone
    · rw [if_pos hp]
      obtain ⟨w1, w2, w3, w4⟩ := ih st hwf hcc
        (fun e' he' => hall e' (List.mem_cons_of_mem _ he')) hnd.2
      exact ⟨w1, w2, fun k hk => w3 k (fun hm => hk (List.mem_cons_of_mem _ hm)),
        w4⟩
    · rw [if_neg hp]
      have hfresh : dlookup st.block_utxo (get_block_hash c blk) = none := by
        rw [hhash]; exact hunk
      obtain ⟨hwf2, hcc2⟩ :=
        store_block_preserves c st blk blk.prev_block_hash hwf hcc hfresh
      have hrest : ∀ e' ∈ rest, get_block_hash c e'.2 = e'.1 ∧
          dlookup (_store_block c st blk blk.prev_block_hash).2.block_utxo e'.1 =
            none := by
        intro e' he'
        obtain ⟨hh', hu'⟩ := hall e' (List.mem_cons_of_mem _ he')
        refine ⟨hh', ?_⟩
        have hne : e'.1 ≠ get_block_hash c blk := by
          rw [hhash]
          intro heq
          exact hnd.1 (heq ▸ List.mem_map_of_mem Prod.fst he')
        rw [(store_block_lookup_ne c st blk blk.prev_block_hash e'.1 hne).2.2]
        exact hu'
      obtain ⟨w1, w2, w3, w4⟩ :=
        ih (_store_block c st blk blk.prev_block_hash).2 hwf2 hcc2 hrest hnd.2
      refine ⟨w1, w2, ?_, ?_⟩
      · intro k hk
        have hk1 : k ≠ h := fun heq => hk (heq ▸ List.mem_cons_self _ _)
        have hk2 : k ∉ rest.map Prod.fst :=
          fun hm => hk (List.mem_cons_of_mem _ hm)
        rw [w3 k hk2,
          (store_block_lookup_ne c st blk blk.prev_block_hash k
            (by rw [hhash]; exact hk1)).2.1]
      · intro k hk
        exact w4 k (store_block_heights_mono c st blk blk.prev_block_hash k hk)

/-! ### The chain selector: TipMax and tip monotonicity -/

theorem adopt_tipmax (c : Crypto) (st : NodeState)
    (hnd : (dkeys st.block_heights).Nodup)
    (htip : st.latest_hash ∈ dkeys st.block_heights) :
    TipMax (_adopt_best_chain_if_needed c st) := by
  obtain ⟨hbest, hmax⟩ := bestPair_spec st
  by_cases hc : (bestPair st).1 ≠ st.latest_hash
  · have hb : bestPair st ∈ st.block_heights ∧ tipHeight st < (bestPair st).2 := by
      rcases hbest with hb | hb
      · exact absurd (congrArg Prod.fst hb) hc
      · exact hb
    have hA : _adopt_best_chain_if_needed c st =
        _refresh_mempool_after_reorg c
          { st with latest_hash := (bestPair st).1 } := by
      unfold _adopt_best_chain_if_needed
      rw [if_pos hc]
    have hth : tipHeight (_adopt_best_chain_if_needed c st) = (bestPair st).2 := by
      unfold tipHeight
      rw [hA, refresh_block_heights, refresh_latest_hash]
      show (dlookup st.block_heights (bestPair st).1).getD 0 = (bestPair st).2
      have hlook : dlookup st.block_heights (bestPair st).1 =
          some (bestPair st).2 := dlookup_of_mem hnd hb.1
      rw [hlook]
      rfl
    constructor
    · rw [hA, refresh_block_heights, refresh_latest_hash]
      exact List.mem_map_of_mem Prod.fst hb.1
    · intro e he
      rw [hA, refresh_block_heights] at he
      rw [hth]
      exact hmax e he
  · have hA : _adopt_best_chain_if_needed c st = st := by
      unfold _adopt_best_chain_if_needed
      rw [if_neg hc]
    rw [hA]
    push_neg at hc
    constructor
    · exact htip
    · intro e he
      rcases hbest with hb | hb
      · have : (bestPair st).2 = tipHeight st := by rw [hb]
        rw [← this]
        exact hmax e he
      · have hlook : dlookup st.block_heights st.latest_hash =
            some (bestPair st).2 := by
          rw [← hc]
          exact dlookup_of_mem hnd hb.1
        have : tipHeight st = (bestPair st).2 := by
          unfold tipHeight
          rw [hlook]
          rfl
        exact absurd (this ▸ hb.2) (lt_irrefl _)

theorem adopt_tip_monotone (c : Crypto) (st : NodeState)
    (hnd : (dkeys st.block_heights).Nodup)
    (htip : st.latest_hash ∈ dkeys st.block_heights) :
    tipHeight st ≤ tipHeight (_adopt_best_chain_if_needed c st) ∧
    ((_adopt_best_chain_if_needed c st).latest_hash ≠ st.latest_hash →
      tipHeight st < tipHeight (_adopt_best_chain_if_needed c st)) := by
  obtain ⟨hbest, hmax⟩ := bestPair_spec st
  by_cases hc : (bestPair st).1 ≠ st.latest_hash
  · have hb : bestPair st ∈ st.block_heights ∧ tipHeight st < (bestPair st).2 := by
      rcases hbest with hb | hb
      · exact absurd (congrArg Prod.fst hb) hc
      · exact hb
    have hA : _adopt_best_chain_if_needed c st =
        _refresh_mempool_after_reorg c
          { st with latest_hash := (bestPair st).1 } := by
      unfold _adopt_best_chain_if_needed
      rw [if_pos hc]
    have hth : tipHeight (_adopt_best_chain_if_needed c st) = (bestPair st).2 := by
      unfold tipHeight
      rw [hA, refresh_block_heights, refresh_latest_hash]
      show (dlookup st.block_heights (bestPair st).1).getD 0 = (bestPair st).2
      have hlook : dlookup st.block_heights (bestPair st).1 =
          some (bestPair st).2 := dlookup_of_mem hnd hb.1
      rw [hlook]
      rfl
    rw [hth]
    exact ⟨le_of_lt hb.2, fun _ => hb.2⟩
  · have hA : _adopt_best_chain_if_needed c st = st := by
      unfold _adopt_best_chain_if_needed
      rw [if_neg hc]
    rw [hA]
    exact ⟨le_refl _, fun hne => absurd rfl hne⟩

/-! ### Mempool reconciliation establishes the disjointness invariant -/

theorem MpSync.append {mp : List Transaction} {ins : List TxID}
    (h : MpSync mp ins) (tx : Transaction) (i : TxID)
    (hin : tx.input = some i) (hni : i ∉ ins) :
    MpSync (mp ++ [tx]) (ins ++ [i]) := by
  constructor
  · intro t ht
    rcases List.mem_append.1 ht with ht | ht
    · exact h.noCoinbase t ht
    · rw [List.mem_singleton.1 ht, hin]
      exact Option.some_ne_none i
  · rw [List.pairwise_append]
    refine ⟨h.distinctInputs, List.pairwise_singleton _ _, ?_⟩
    intro a ha b hb
    rw [List.mem_singleton.1 hb]
    intro heq
    rcases Option.isSome_iff_exists.1 (Option.ne_none_iff_isSome.1
      (h.noCoinbase a ha)) with ⟨j, hj⟩
    rw [heq, hin] at hj
    cases hj
    exact hni (h.syncFrom a ha i (heq.trans hin))
  · intro j hj
    rcases List.mem_append.1 hj with hj | hj
    · obtain ⟨t, ht, hti⟩ := h.syncTo j hj
      exact ⟨t, List.mem_append_left _ ht, hti⟩
    · rw [List.mem_singleton.1 hj]
      exact ⟨tx, List.mem_append_right _ (List.mem_singleton_self _), hin⟩
  · intro t ht j hj
    rcases List.mem_append.1 ht with ht | ht
    · exact List.mem_append_left _ (h.syncFrom t ht j hj)
    · rw [List.mem_singleton.1 ht] at hj
      rw [hin] at hj
      cases hj
      exact List.mem_append_right _ (List.mem_singleton_self _)
  · rw [List.nodup_append]
    exact ⟨h.ndInputs, List.nodup_singleton _, by simpa using hni⟩

theorem refreshLoop_sync (c : Crypto) (u : Utxo) :
    ∀ (rest accM : List Transaction) (accI : List TxID),
      MpSync accM accI →
      MpSync (refreshLoop c u rest accM accI).1 (refreshLoop c u rest accM accI).2 := by
  intro rest
  induction rest with
  | nil => intro accM accI h; exact h
  | cons tx rest' ih =>
    intro accM accI h
    simp only [refreshLoop]
    cases hin : tx.input with
    | none => exact ih accM accI h
    | some i =>
      simp only
      by_cases hi : i ∈ accI
      · rw [if_pos hi]
        exact ih accM accI h
      · rw [if_neg hi]
        cases hl : dlookup u i with
        | none => exact ih accM accI h
        | some prev_tx =>
          simp only
          by_cases hv : c.verify (serialize_for_signature i tx.output)
              tx.signature prev_tx.output
          · rw [if_pos hv]
            exact ih _ _ (h.append tx i hin hi)
          · rw [if_neg hv]
            exact ih accM accI h

theorem refreshLoop_subset (c : Crypto) (u : Utxo) :
    ∀ (rest accM : List Transaction) (accI : List TxID),
      ∀ x ∈ (refreshLoop c u rest accM accI).1, x ∈ accM ∨ x ∈ rest := by
  intro rest
  induction rest with
  | nil =>
    intro accM accI x hx
    exact Or.inl hx
  | cons tx rest' ih =>
    intro accM accI x hx
    simp only [refreshLoop] at hx
    cases hin : tx.input with
    | none =>
      rw [hin] at hx
      simp only at hx
      rcases ih accM accI x hx with h | h
      · exact Or.inl h
      · exact Or.inr (List.mem_cons_of_mem _ h)
    | some i =>
      rw [hin] at hx
      simp only at hx
      by_cases hi : i ∈ accI
      · rw [if_pos hi] at hx
        rcases ih accM accI x hx with h | h
        · exact Or.inl h
        · exact Or.inr (List.mem_cons_of_mem _ h)
      · rw [if_neg hi] at hx
        cases hl : dlookup u i with
        | none =>
          rw [hl] at hx
          simp only at hx
          rcases ih accM accI x hx with h | h
          · exact Or.inl h
          · exact Or.inr (List.mem_cons_of_mem _ h)
        | some prev_tx =>
          rw [hl] at hx
          simp only at hx
          by_cases hv : c.verify (serialize_for_signature i tx.output)
              tx.signature prev_tx.output
          · rw [if_pos hv] at hx
            rcases ih _ _ x hx with h | h
            · rcases List.mem_append.1 h with h | h
              · exact Or.inl h
              · exact Or.inr (List.mem_singleton.1 h ▸ List.mem_cons_self _ _)
            · exact Or.inr (List.mem_cons_of_mem _ h)
          · rw [if_neg hv] at hx
            rcases ih accM accI x hx with h | h
            · exact Or.inl h
            · exact Or.inr (List.mem_cons_of_mem _ h)

theorem refresh_mpinv (c : Crypto) (st : NodeState) :
    MempoolInv (_refresh_mempool_after_reorg c st) := by
  show MpSync _ _
  have hbase : MpSync ([] : List Transaction) ([] : List TxID) := by
    constructor
    · intro t ht; cases ht
    · exact List.Pairwise.nil
    · intro j hj; cases hj
    · intro t ht; cases ht
    · exact List.nodup_nil
  exact refreshLoop_sync c _ st.mempool [] [] hbase

theorem refresh_mempool_subset (c : Crypto) (st : NodeState) :
    ∀ x ∈ (_refresh_mempool_after_reorg c st).mempool, x ∈ st.mempool := by
  intro x hx
  rcases refreshLoop_subset c _ st.mempool [] [] x hx with h | h
  · cases h
  · exact h

theorem adopt_mpinv (c : Crypto) (st : NodeState) (h : MempoolInv st) :
    MempoolInv (_adopt_best_chain_if_needed c st) := by
  unfold _adopt_best_chain_if_needed
  by_cases hc : (bestPair st).1 ≠ st.latest_hash
  · rw [if_pos hc]
    exact refresh_mpinv c _
  · rw [if_neg hc]
    exact h

theorem adopt_mempool_subset (c : Crypto) (st : NodeState) :
    ∀ x ∈ (_adopt_best_chain_if_needed c st).mempool, x ∈ st.mempool := by
  unfold _adopt_best_chain_if_needed
  by_cases hc : (bestPair st).1 ≠ st.latest_hash
  · rw [if_pos hc]
    intro x hx
    exact refresh_mempool_subset c
      { st with latest_hash := (bestPair st).1 } x hx
  · rw [if_neg hc]
    intro x hx
    exact hx

/-! ### `removeFirst` and the mining clean-up loop -/

theorem removeFirst_sublist {α : Type} [DecidableEq α] :
    ∀ (l : List α) (a : α), (removeFirst l a).Sublist l := by
  intro l a
  induction l with
  | nil => exact List.Sublist.refl _
  | cons x rest ih =>
    by_cases hx : x = a
    · simp only [removeFirst, if_pos hx]
      exact List.sublist_cons_self _ _
    · simp only [removeFirst, if_neg hx]
      exact List.Sublist.cons₂ _ ih

theorem removeFirst_subset {α : Type} [DecidableEq α] {l : List α} {a x : α}
    (h : x ∈ removeFirst l a) : x ∈ l :=
  (removeFirst_sublist l a).subset h

theorem mem_removeFirst_of_ne {α : Type} [DecidableEq α] :
    ∀ {l : List α} {a x : α}, x ∈ l → x ≠ a → x ∈ removeFirst l a := by
  intro l
  induction l with
  | nil => intro a x h _; cases h
  | cons y rest ih =>
    intro a x hx hne
    by_cases hy : y = a
    · simp only [removeFirst, if_pos hy]
      rcases List.mem_cons.1 hx with rfl | hx
      · exact absurd hy hne
      · exact hx
    · simp only [removeFirst, if_neg hy]
      rcases List.mem_cons.1 hx with rfl | hx
      · exact List.mem_cons_self _ _
      · exact List.mem_cons_of_mem _ (ih hx hne)

theorem pairwise_inputs_eq {l : List Transaction}
    (hp : l.Pairwise (fun a b => a.input ≠ b.input)) :
    ∀ a ∈ l, ∀ b ∈ l, a.input = b.input → a = b := by
  induction l with
  | nil => intro a ha; cases ha
  | cons x rest ih =>
    rw [List.pairwise_cons] at hp
    intro a ha b hb heq
    rcases List.mem_cons.1 ha with ha1 | ha1
    · rcases List.mem_cons.1 hb with hb1 | hb1
      · rw [ha1, hb1]
      · exact absurd (ha1 ▸ heq) (hp.1 b hb1)
    · rcases List.mem_cons.1 hb with hb1 | hb1
      · exact absurd (hb1 ▸ heq.symm) (hp.1 a ha1)
      · exact ih hp.2 a ha1 b hb1 heq

theorem removeFirst_not_mem {l : List Transaction} {a : Transaction}
    (hp : l.Pairwise (fun x y => x.input ≠ y.input)) : a ∉ removeFirst l a := by
  induction l with
  | nil => intro h; cases h
  | cons x rest ih =>
    rw [List.pairwise_cons] at hp
    by_cases hx : x = a
    · simp only [removeFirst, if_pos hx]
      intro hmem
      exact hp.1 a hmem (by rw [hx])
    · simp only [removeFirst, if_neg hx]
      intro hmem
      rcases List.mem_cons.1 hmem with rfl | hmem
      · exact hx rfl
      · exact ih hp.2 hmem

/-- One iteration of the `mine_block` clean-up loop (remove `tx` if present,
discard its input) preserves the mempool sync invariant, removes `tx`,
clears its input, and only shrinks both lists. -/
theorem removal_step (st : NodeState) (tx : Transaction)
    (hs : MpSync st.mempool st.mempool_inputs)
    (hcond : ∀ tx' ∈ st.mempool, tx'.input = tx.input → tx' = tx) :
    MpSync
      (if tx ∈ st.mempool then removeFirst st.mempool tx else st.mempool)
      (match tx.input with
        | none => st.mempool_inputs
        | some i => st.mempool_inputs.filter (fun x => x ≠ i)) ∧
    tx ∉ (if tx ∈ st.mempool then removeFirst st.mempool tx else st.mempool) ∧
    (∀ i, tx.input = some i →
      i ∉ (match tx.input with
        | none => st.mempool_inputs
        | some i => st.mempool_inputs.filter (fun x => x ≠ i))) ∧
    (∀ x ∈ (if tx ∈ st.mempool then removeFirst st.mempool tx else st.mempool),
      x ∈ st.mempool) ∧
    (∀ j ∈ (match tx.input with
        | none => st.mempool_inputs
        | some i => st.mempool_inputs.filter (fun x => x ≠ i)),
      j ∈ st.mempool_inputs) := by
  have hmp' : ∀ x ∈ (if tx ∈ st.mempool then removeFirst st.mempool tx
      else st.mempool), x ∈ st.mempool := by
    intro x hx
    by_cases hm : tx ∈ st.mempool
    · rw [if_pos hm] at hx
      exact removeFirst_subset hx
    · rw [if_neg hm] at hx
      exact hx
  have hnotmem : tx ∉ (if tx ∈ st.mempool then removeFirst st.mempool tx
      else st.mempool) := by
    by_cases hm : tx ∈ st.mempool
    · rw [if_pos hm]
      exact removeFirst_not_mem hs.distinctInputs
    · rw [if_neg hm]
      exact hm
  have hsub : (if tx ∈ st.mempool then removeFirst st.mempool tx
      else st.mempool).Sublist st.mempool := by
    by_cases hm : tx ∈ st.mempool
    · rw [if_pos hm]
      exact removeFirst_sublist _ _
    · rw [if_neg hm]
  cases hin : tx.input with
  | none =>
    have hmpeq : (if tx ∈ st.mempool then removeFirst st.mempool tx
        else st.mempool) = st.mempool := by
      have hnm : tx ∉ st.mempool := fun hm => hs.noCoinbase tx hm hin
      rw [if_neg hnm]
    rw [hmpeq]
    refine ⟨hs, ?_, ?_, fun x hx => hx, fun j hj => hj⟩
    · intro hm
      exact hs.noCoinbase tx hm hin
    · intro i hi
      cases hi
  | some i =>
    refine ⟨?_, hnotmem, ?_, hmp', ?_⟩
    · constructor
      · intro t ht
        exact hs.noCoinbase t (hmp' t ht)
      · exact hs.distinctInputs.sublist hsub
      · intro j hj
        rw [List.mem_filter] at hj
        have hji : j ≠ i := by simpa using hj.2
        obtain ⟨t, ht, hti⟩ := hs.syncTo j hj.1
        have htne : t ≠ tx := by
          intro heq
          rw [heq, hin] at hti
          cases hti
          exact hji rfl
        refine ⟨t, ?_, hti⟩
        by_cases hm : tx ∈ st.mempool
        · rw [if_pos hm]
          exact mem_removeFirst_of_ne ht htne
        · rw [if_neg hm]
          exact ht
      · intro t ht j hj
        rw [List.mem_filter]
        refine ⟨hs.syncFrom t (hmp' t ht) j hj, ?_⟩
        have hji : j ≠ i := by
          intro heq
          have : t = tx := hcond t (hmp' t ht) (by rw [hj, heq, hin])
          exact hnotmem (this ▸ ht)
        simpa using hji
      · exact hs.ndInputs.filter _
    · intro j hjeq
      cases hjeq
      intro hmem
      rw [List.mem_filter] at hmem
      simp at hmem
    · intro j hj
      rw [List.mem_filter] at hj
      exact hj.1

theorem removeMined_frame :
    ∀ (us : List Transaction) (st : NodeState),
      (removeMined st us).blocks = st.blocks ∧
      (removeMined st us).block_heights = st.block_heights ∧
      (removeMined st us).block_utxo = st.block_utxo ∧
      (removeMined st us).latest_hash = st.latest_hash ∧
      (removeMined st us).connections = st.connections ∧
      (removeMined st us).public_key = st.public_key := by
  intro us
  induction us with
  | nil => intro st; exact ⟨rfl, rfl, rfl, rfl, rfl, rfl⟩
  | cons tx rest ih =>
    intro st
    simp only [removeMined]
    exact ih _

theorem removeMined_spec :
    ∀ (us : List Transaction) (st : NodeState),
      MpSync st.mempool st.mempool_inputs →
      (∀ tx ∈ us, ∀ tx' ∈ st.mempool, tx'.input = tx.input → tx' = tx) →
      MpSync (removeMined st us).mempool (removeMined st us).mempool_inputs ∧
      (∀ tx ∈ us, tx ∉ (removeMined st us).mempool ∧
        ∀ i, tx.input = some i → i ∉ (removeMined st us).mempool_inputs) ∧
      (∀ x ∈ (removeMined st us).mempool, x ∈ st.mempool) ∧
      (∀ j ∈ (removeMined st us).mempool_inputs, j ∈ st.mempool_inputs) := by
  intro us
  induction us with
  | nil =>
    intro st hs _
    refine ⟨hs, ?_, fun x hx => hx, fun j hj => hj⟩
    intro tx htx
    cases htx
  | cons tx rest ih =>
    intro st hs hcond
    obtain ⟨hs1, hnot1, hni1, hmp1, hins1⟩ :=
      removal_step st tx hs (hcond tx (List.mem_cons_self _ _))
    simp only [removeMined]
    set st1 : NodeState := { st with
      mempool := if tx ∈ st.mempool then removeFirst st.mempool tx else st.mempool,
      mempool_inputs := match tx.input with
        | none => st.mempool_inputs
        | some i => st.mempool_inputs.filter (fun x => x ≠ i) } with hst1
    have hcond1 : ∀ t ∈ rest, ∀ t' ∈ st1.mempool, t'.input = t.input → t' = t := by
      intro t ht t' ht' heq
      exact hcond t (List.mem_cons_of_mem _ ht) t' (hmp1 t' ht') heq
    obtain ⟨w1, w2, w3, w4⟩ := ih st1 hs1 hcond1
    refine ⟨w1, ?_, fun x hx => hmp1 x (w3 x hx), fun j hj => hins1 j (w4 j hj)⟩
    intro t ht
    rcases List.mem_cons.1 ht with rfl | ht
    · constructor
      · intro hmem
        exact hnot1 (w3 t hmem)
      · intro i hi hmem
        exact hni1 i hi (w4 i hmem)
    · exact w2 t ht

/-! ### Operation decomposition lemmas -/

theorem mine_block_cases (c : Crypto) (st : NodeState) (sig : Sgn) :
    (mine_block c st sig = none ∧ mineState c st sig = st) ∨
    ((_store_block c st (mineBlockOf st sig) st.latest_hash).1 = true ∧
      mineState c st sig =
        removeMined
          (_adopt_best_chain_if_needed c
            (_store_block c st (mineBlockOf st sig) st.latest_hash).2)
          (st.mempool.take (BLOCK_SIZE - 1))) := by
  by_cases hb : (_store_block c st (mineBlockOf st sig) st.latest_hash).1 = true
  · right
    have hm : mine_block c st sig = some
        ⟨get_block_hash c (mineBlockOf st sig),
          removeMined
            (_adopt_best_chain_if_needed c
              (_store_block c st (mineBlockOf st sig) st.latest_hash).2)
            (st.mempool.take (BLOCK_SIZE - 1)),
          st.connections⟩ := by
      simp only [mine_block]
      rw [if_pos hb]
    refine ⟨hb, ?_⟩
    unfold mineState
    rw [hm]
  · left
    have hm : mine_block c st sig = none := by
      simp only [mine_block]
      rw [if_neg hb]
    refine ⟨hm, ?_⟩
    unfold mineState
    rw [hm]

theorem notifyState_cases (c : Crypto) (st : NodeState)
    (sender : BlockHash → Option Block) (fuel : Nat) (h : BlockHash) :
    notifyState c st sender fuel h = _adopt_best_chain_if_needed c st ∨
    ∃ pending, fetchWalk c st.blocks sender fuel h [] = some pending ∧
      notifyState c st sender fuel h =
        _adopt_best_chain_if_needed c (replayPending c st pending) := by
  unfold notifyState
  by_cases hcond : (dlookup st.blocks h).isNone ∧ h ≠ GENESIS_BLOCK_PREV
  · rw [if_pos hcond]
    unfold _fetch_and_store_chain
    cases hw : fetchWalk c st.blocks sender fuel h [] with
    | none => exact Or.inl rfl
    | some pending => exact Or.inr ⟨pending, rfl, rfl⟩
  · rw [if_neg hcond]
    exact Or.inl rfl

theorem walkNodup_elim {c : Crypto} {st : NodeState}
    {sender : BlockHash → Option Block} {fuel : Nat} {h : BlockHash}
    {pending : List (BlockHash × Block)}
    (hnd : walkNodup c st sender fuel h)
    (hw : fetchWalk c st.blocks sender fuel h [] = some pending) :
    (pending.map Prod.fst).Nodup := by
  unfold walkNodup at hnd
  rw [hw] at hnd
  exact hnd

theorem mpSync_nil : MpSync ([] : List Transaction) ([] : List TxID) := by
  constructor
  · intro t ht; cases ht
  · exact List.Pairwise.nil
  · intro j hj; cases hj
  · intro t ht; cases ht
  · exact List.nodup_nil

/-! ### The node invariant is inductive -/

theorem init_inv (c : Crypto) (pk : PublicKey) : NodeInv c (initState pk) := by
  refine ⟨?_, ?_, ?_, ?_⟩
  · constructor
    · simp [initState, dkeys]
    · simp [initState, dkeys]
    · simp [initState, dkeys]
    · simp [initState, dlookup]
    · simp [initState, dlookup]
    · simp [initState, dkeys]
    · intro k hk
      simp only [initState, dkeys, List.map_cons, List.map_nil,
        List.mem_singleton] at hk
      exact Or.inl hk
    · intro k hk
      simp only [initState, dkeys, List.map_cons, List.map_nil,
        List.mem_singleton] at hk
      exact Or.inl hk
    · intro k hk
      simp [initState, dkeys] at hk
    · intro k hk
      simp [initState, dkeys] at hk
  · constructor
    intro e he
    simp [initState] at he
  · constructor
    · simp [initState, dkeys]
    · intro e he
      simp only [initState, List.mem_singleton] at he
      rw [he]
      simp [tipHeight, initState, dlookup]
  · exact mpSync_nil

theorem step_preserves_inv {c : Crypto} {st st' : NodeState}
    (hinv : NodeInv c st) (hs : Step c st st') : NodeInv c st' := by
  cases hs with
  | addTx tx =>
    rcases add_tx_cases c st tx with h | ⟨i, hin, hni, h⟩
    · rw [h]
      exact hinv
    · rw [h]
      exact ⟨storeWF_transfer hinv.wf rfl rfl rfl, chainConsist_transfer hinv.chain rfl rfl rfl,
        tipMax_transfer hinv.tip rfl rfl, hinv.mp.append tx i hin hni⟩
  | notify sender fuel h hnd =>
    rcases notifyState_cases c st sender fuel h with hc | ⟨pending, hw, hc⟩
    · rw [hc]
      obtain ⟨fb, fh, fu, fc, fp⟩ := adopt_frame c st
      exact ⟨storeWF_transfer hinv.wf fb fh fu, chainConsist_transfer hinv.chain fb fh fu,
        adopt_tipmax c st hinv.wf.ndHeights hinv.tip.tipMem,
        adopt_mpinv c st hinv.mp⟩
    · rw [hc]
      have hall : ∀ e ∈ pending, get_block_hash c e.2 = e.1 ∧
          dlookup st.block_utxo e.1 = none := by
        intro e he
        obtain ⟨-, hh, hb, hg⟩ :=
          (fetchWalk_sound c st.blocks sender fuel h [] pending hw e he).resolve_left
            (by intro hfalse; cases hfalse)
        refine ⟨hh, ?_⟩
        rw [dlookup_eq_none_iff]
        intro hmem
        rcases hinv.wf.utxoSub e.1 hmem with hge | hbm
        · exact hg hge
        · exact (dlookup_eq_none_iff _ _).1 hb hbm
      obtain ⟨w1, w2, w3, w4⟩ := replay_preserves c pending st hinv.wf hinv.chain
        hall (walkNodup_elim hnd hw)
      obtain ⟨f1, f2, f3, f4, f5⟩ := replay_frame c pending st
      obtain ⟨fb, fh, fu, fc, fp⟩ :=
        adopt_frame c (replayPending c st pending)
      have htipmem : (replayPending c st pending).latest_hash ∈
          dkeys (replayPending c st pending).block_heights := by
        rw [f3]
        exact w4 _ hinv.tip.tipMem
      exact ⟨storeWF_transfer w1 fb fh fu, chainConsist_transfer w2 fb fh fu,
        adopt_tipmax c _ w1.ndHeights htipmem,
        adopt_mpinv c _ (mempoolInv_transfer hinv.mp f1 f2)⟩
  | mine sig hf =>
    rcases mine_block_cases c st sig with ⟨-, hm⟩ | ⟨hb, hm⟩
    · rw [hm]
      exact hinv
    · rw [hm]
      obtain ⟨hfb, hfh, hfu, hfgen⟩ := hf
      obtain ⟨s1, s2⟩ := store_block_preserves c st (mineBlockOf st sig)
        st.latest_hash hinv.wf hinv.chain hfu
      obtain ⟨g1, g2, g3, g4, g5⟩ :=
        store_block_frame c st (mineBlockOf st sig) st.latest_hash
      have htipmem1 : (_store_block c st (mineBlockOf st sig)
          st.latest_hash).2.latest_hash ∈
          dkeys (_store_block c st (mineBlockOf st sig)
            st.latest_hash).2.block_heights := by
        rw [g3]
        exact store_block_heights_mono c st (mineBlockOf st sig) st.latest_hash
          _ hinv.tip.tipMem
      obtain ⟨fb, fh, fu, fc, fp⟩ :=
        adopt_frame c (_store_block c st (mineBlockOf st sig) st.latest_hash).2
      obtain ⟨r1, r2, r3, r4, r5, r6⟩ := removeMined_frame
        (st.mempool.take (BLOCK_SIZE - 1))
        (_adopt_best_chain_if_needed c
          (_store_block c st (mineBlockOf st sig) st.latest_hash).2)
      have hmp2 : MempoolInv (_adopt_best_chain_if_needed c
          (_store_block c st (mineBlockOf st sig) st.latest_hash).2) :=
        adopt_mpinv c _ (mempoolInv_transfer hinv.mp g1 g2)
      have hcond : ∀ tx ∈ st.mempool.take (BLOCK_SIZE - 1),
          ∀ tx' ∈ (_adopt_best_chain_if_needed c
            (_store_block c st (mineBlockOf st sig) st.latest_hash).2).mempool,
          tx'.input = tx.input → tx' = tx := by
        intro tx htx tx' htx' heq
        have htx1 : tx ∈ st.mempool := List.take_subset _ _ htx
        have htx'1 : tx' ∈ st.mempool := by
          have := adopt_mempool_subset c
            (_store_block c st (mineBlockOf st sig) st.latest_hash).2 tx' htx'
          rw [g1] at this
          exact this
        exact pairwise_inputs_eq hinv.mp.distinctInputs tx' htx'1 tx htx1 heq
      obtain ⟨m1, m2, m3, m4⟩ := removeMined_spec
        (st.mempool.take (BLOCK_SIZE - 1)) _ hmp2 hcond
      refine ⟨?_, ?_, ?_, m1⟩
      · exact storeWF_transfer (storeWF_transfer s1 fb fh fu) r1 r2 r3
      · exact chainConsist_transfer (chainConsist_transfer s2 fb fh fu) r1 r2 r3
      · exact tipMax_transfer (adopt_tipmax c _ s1.ndHeights htipmem1) r2 r4
  | clear =>
    exact ⟨storeWF_transfer hinv.wf rfl rfl rfl, chainConsist_transfer hinv.chain rfl rfl rfl,
      tipMax_transfer hinv.tip rfl rfl, mpSync_nil⟩
  | connect p =>
    unfold connectState
    by_cases hp : p ∈ st.connections
    · rw [if_pos hp]
      exact hinv
    · rw [if_neg hp]
      exact ⟨storeWF_transfer hinv.wf rfl rfl rfl, chainConsist_transfer hinv.chain rfl rfl rfl,
        tipMax_transfer hinv.tip rfl rfl, mempoolInv_transfer hinv.mp rfl rfl⟩
  | disconnect p =>
    exact ⟨storeWF_transfer hinv.wf rfl rfl rfl, chainConsist_transfer hinv.chain rfl rfl rfl,
      tipMax_transfer hinv.tip rfl rfl, mempoolInv_transfer hinv.mp rfl rfl⟩

theorem reachable_inv {c : Crypto} {pk : PublicKey} {st : NodeState}
    (h : Reachable c pk st) : NodeInv c st := by
  induction h with
  | init => exact init_inv c pk
  | step hr hs ih => exact step_preserves_inv ih hs

/-- C1 — Chain invariant: in every reachable node state (any sequence of
`connect` / `notify_of_block` / `mine_block` / `add_transaction_to_mempool`
effects), the genesis sentinel has recorded height 0, an empty snapshot, and
no block; and every stored block id's recorded height is the recorded height
of its `prev_block_id` plus 1, while its recorded snapshot is the parent's
snapshot with the block's effects applied (each non-coinbase input removed,
every transaction inserted under its txid). -/
theorem chain_invariant_of_reachable (c : Crypto) (pk : PublicKey)
    (st : NodeState) (h : Reachable c pk st) :
    dlookup st.block_heights GENESIS_BLOCK_PREV = some 0 ∧
    dlookup st.block_utxo GENESIS_BLOCK_PREV = some [] ∧
    dlookup st.blocks GENESIS_BLOCK_PREV = none ∧
    ∀ x b, dlookup st.blocks x = some b →
      (∃ hp, dlookup st.block_heights b.prev_block_hash = some hp ∧
        dlookup st.block_heights x = some (hp + 1)) ∧
      (∃ up, dlookup st.block_utxo b.prev_block_hash = some up ∧
        dlookup st.block_utxo x =
          some (applyBlockEffects c up b.transactions)) := by
  obtain ⟨hwf, hcc, -, -⟩ := reachable_inv h
  refine ⟨hwf.genHeight, hwf.genUtxo,
    (dlookup_eq_none_iff _ _).2 hwf.genNotBlock, ?_⟩
  intro x b hx
  obtain ⟨-, ⟨hp, h1, h2⟩, up, nu, g1, g2, g3⟩ :=
    hcc.consist (x, b) (mem_of_dlookup hx)
  refine ⟨⟨hp, h1, h2⟩, up, g1, ?_⟩
  rw [g3, validateTxs_eq_apply c b.transactions up [] nu g2]

/-- Coinbase randomness used by the reachable concrete states below. -/
def wSig : Sgn := List.replicate 64 3

/-- A fresh node after one successful `mine_block`. -/
def wState1 : NodeState := mineState cSimple (initState []) wSig

/-- A transaction spending the coinbase mined in `wState1`. -/
def wTx : Transaction := ⟨[9], some (get_txid cSimple ⟨[], none, wSig⟩), [1]⟩

/-- `wState1` after admitting `wTx` to the mempool. -/
def wState2 : NodeState := (add_transaction_to_mempool cSimple wState1 wTx).2

theorem wState1_reachable : Reachable cSimple [] wState1 :=
  Reachable.step Reachable.init
    (Step.mine (initState []) wSig
      ⟨by decide, by decide, by decide, by decide⟩)

theorem wState2_reachable : Reachable cSimple [] wState2 :=
  Reachable.step wState1_reachable (Step.addTx wState1 wTx)

/-- Witness: the chain invariant holds in the concrete reachable state with
one mined block. -/
theorem chain_invariant_of_reachable_witness :
    dlookup wState1.block_heights GENESIS_BLOCK_PREV = some 0 ∧
    dlookup wState1.block_utxo GENESIS_BLOCK_PREV = some [] ∧
    dlookup wState1.blocks GENESIS_BLOCK_PREV = none ∧
    ∀ x b, dlookup wState1.blocks x = some b →
      (∃ hp, dlookup wState1.block_heights b.prev_block_hash = some hp ∧
        dlookup wState1.block_heights x = some (hp + 1)) ∧
      (∃ up, dlookup wState1.block_utxo b.prev_block_hash = some up ∧
        dlookup wState1.block_utxo x =
          some (applyBlockEffects cSimple up b.transactions)) :=
  chain_invariant_of_reachable cSimple [] wState1 wState1_reachable

/-- C9 — Mempool disjointness: in every reachable node state, no mempool
entry is a coinbase, no two entries share an input, and the consumed-input
index holds exactly the inputs of the current entries. -/
theorem mempool_disjointness_of_reachable (c : Crypto) (pk : PublicKey)
    (st : NodeState) (h : Reachable c pk st) :
    (∀ tx ∈ st.mempool, tx.input ≠ none) ∧
    st.mempool.Pairwise (fun a b => a.input ≠ b.input) ∧
    ∀ i, i ∈ st.mempool_inputs ↔ ∃ tx ∈ st.mempool, tx.input = some i := by
  obtain ⟨-, -, -, hmp⟩ := reachable_inv h
  refine ⟨hmp.noCoinbase, hmp.distinctInputs, fun i => ⟨fun hi => hmp.syncTo i hi, ?_⟩⟩
  rintro ⟨tx, htx, hin⟩
  exact hmp.syncFrom tx htx i hin

/-- Witness: mempool disjointness in a concrete reachable state whose
mempool holds one admitted spend. -/
theorem mempool_disjointness_of_reachable_witness :
    ((∀ tx ∈ wState2.mempool, tx.input ≠ none) ∧
    wState2.mempool.Pairwise (fun a b => a.input ≠ b.input) ∧
    ∀ i, i ∈ wState2.mempool_inputs ↔ ∃ tx ∈ wState2.mempool, tx.input = some i) ∧
    wState2.mempool ≠ [] :=
  ⟨mempool_disjointness_of_reachable cSimple [] wState2 wState2_reachable,
    by decide⟩

/-- C10 — Tip monotonicity: across every public operation, including
peer-driven gossip and reorgs, the recorded height of the node's tip never
decreases; and the tip is reassigned only by the chain selector, to a block
of strictly greater recorded height — so any actual tip change strictly
increases the tip height. -/
theorem tip_monotonic_step (c : Crypto) (pk : PublicKey) {st st' : NodeState}
    (hr : Reachable c pk st) (hs : Step c st st') :
    tipHeight st ≤ tipHeight st' ∧
    (st'.latest_hash ≠ st.latest_hash → tipHeight st < tipHeight st') := by
  have hinv := reachable_inv hr
  cases hs with
  | addTx tx =>
    rcases add_tx_cases c st tx with h | ⟨i, hin, hni, h⟩
    · rw [h]
      exact ⟨le_refl _, fun hne => absurd rfl hne⟩
    · rw [h]
      refine ⟨le_of_eq (tipHeight_congr rfl rfl).symm, fun hne => absurd rfl hne⟩
  | notify sender fuel h hnd =>
    rcases notifyState_cases c st sender fuel h with hc | ⟨pending, hw, hc⟩
    · rw [hc]
      exact adopt_tip_monotone c st hinv.wf.ndHeights hinv.tip.tipMem
    · rw [hc]
      have hall : ∀ e ∈ pending, get_block_hash c e.2 = e.1 ∧
          dlookup st.block_utxo e.1 = none := by
        intro e he
        obtain ⟨-, hh, hb, hg⟩ :=
          (fetchWalk_sound c st.blocks sender fuel h [] pending hw e
            he).resolve_left (by intro hfalse; cases hfalse)
        refine ⟨hh, ?_⟩
        rw [dlookup_eq_none_iff]
        intro hmem
        rcases hinv.wf.utxoSub e.1 hmem with hge | hbm
        · exact hg hge
        · exact (dlookup_eq_none_iff _ _).1 hb hbm
      obtain ⟨w1, w2, w3, w4⟩ := replay_preserves c pending st hinv.wf hinv.chain
        hall (walkNodup_elim hnd hw)
      obtain ⟨f1, f2, f3, f4, f5⟩ := replay_frame c pending st
      have htipnot : st.latest_hash ∉ pending.map Prod.fst := by
        intro hmem
        obtain ⟨e, he, heq⟩ := List.mem_map.1 hmem
        obtain ⟨-, hh, hb, hg⟩ :=
          (fetchWalk_sound c st.blocks sender fuel h [] pending hw e
            he).resolve_left (by intro hfalse; cases hfalse)
        rcases hinv.wf.heightsSub st.latest_hash hinv.tip.tipMem with hge | hbm
        · exact hg (heq.trans hge)
        · exact (dlookup_eq_none_iff _ _).1 hb (heq ▸ hbm)
      have hth1 : tipHeight (replayPending c st pending) = tipHeight st := by
        unfold tipHeight
        rw [f3, w3 st.latest_hash htipnot]
      have htipmem1 : (replayPending c st pending).latest_hash ∈
          dkeys (replayPending c st pending).block_heights := by
        rw [f3]
        exact w4 _ hinv.tip.tipMem
      obtain ⟨hm1, hm2⟩ :=
        adopt_tip_monotone c (replayPending c st pending) w1.ndHeights htipmem1
      refine ⟨hth1 ▸ hm1, ?_⟩
      intro hne
      have hne1 : (_adopt_best_chain_if_needed c
          (replayPending c st pending)).latest_hash ≠
          (replayPending c st pending).latest_hash := by
        rw [f3]
        exact hne
      exact hth1 ▸ hm2 hne1
  | mine sig hf =>
    rcases mine_block_cases c st sig with ⟨-, hm⟩ | ⟨hb, hm⟩
    · rw [hm]
      exact ⟨le_refl _, fun hne => absurd rfl hne⟩
    · rw [hm]
      obtain ⟨hfb, hfh, hfu, hfgen⟩ := hf
      obtain ⟨s1, s2⟩ := store_block_preserves c st (mineBlockOf st sig)
        st.latest_hash hinv.wf hinv.chain hfu
      obtain ⟨g1, g2, g3, g4, g5⟩ :=
        store_block_frame c st (mineBlockOf st sig) st.latest_hash
      have htipne : st.latest_hash ≠ get_block_hash c (mineBlockOf st sig) := by
        intro heq
        exact (dlookup_eq_none_iff _ _).1 hfh (heq ▸ hinv.tip.tipMem)
      have hth1 : tipHeight (_store_block c st (mineBlockOf st sig)
          st.latest_hash).2 = tipHeight st := by
        unfold tipHeight
        rw [g3, (store_block_lookup_ne c st (mineBlockOf st sig)
          st.latest_hash st.latest_hash htipne).2.1]
      have htipmem1 : (_store_block c st (mineBlockOf st sig)
          st.latest_hash).2.latest_hash ∈
          dkeys (_store_block c st (mineBlockOf st sig)
            st.latest_hash).2.block_heights := by
        rw [g3]
        exact store_block_heights_mono c st (mineBlockOf st sig) st.latest_hash
          _ hinv.tip.tipMem
      obtain ⟨hm1, hm2⟩ := adopt_tip_monotone c
        (_store_block c st (mineBlockOf st sig) st.latest_hash).2
        s1.ndHeights htipmem1
      obtain ⟨r1, r2, r3, r4, r5, r6⟩ := removeMined_frame
        (st.mempool.take (BLOCK_SIZE - 1))
        (_adopt_best_chain_if_needed c
          (_store_block c st (mineBlockOf st sig) st.latest_hash).2)
      have hth3 : tipHeight (removeMined
          (_adopt_best_chain_if_needed c
            (_store_block c st (mineBlockOf st sig) st.latest_hash).2)
          (st.mempool.take (BLOCK_SIZE - 1))) =
          tipHeight (_adopt_best_chain_if_needed c
            (_store_block c st (mineBlockOf st sig) st.latest_hash).2) :=
        tipHeight_congr r2 r4
      refine ⟨?_, ?_⟩
      · rw [hth3, ← hth1]
        exact hm1
      · intro hne
        rw [hth3, ← hth1]
        refine hm2 ?_
        rw [g3]
        intro heq
        apply hne
        rw [r4, heq]
  | clear =>
    exact ⟨le_refl _, fun hne => absurd rfl hne⟩
  | connect p =>
    have hconn : (connectState st p).block_heights = st.block_heights ∧
        (connectState st p).latest_hash = st.latest_hash := by
      unfold connectState
      by_cases hp : p ∈ st.connections
      · rw [if_pos hp]
        exact ⟨rfl, rfl⟩
      · rw [if_neg hp]
        exact ⟨rfl, rfl⟩
    exact ⟨le_of_eq (tipHeight_congr hconn.1 hconn.2).symm,
      fun hne => absurd hconn.2 hne⟩
  | disconnect p =>
    exact ⟨le_refl _, fun hne => absurd rfl hne⟩

/-- Witness: mining one block on a fresh node is a `Step` that strictly
raises the tip height from 0 to 1. -/
theorem tip_monotonic_step_witness :
    tipHeight (initState []) ≤ tipHeight wState1 ∧
    (wState1.latest_hash ≠ (initState []).latest_hash →
      tipHeight (initState []) < tipHeight wState1) :=
  tip_monotonic_step cSimple [] Reachable.init
    (Step.mine (initState []) wSig
      ⟨by decide, by decide, by decide, by decide⟩)

theorem dinsert_eq_append_of_not_mem {α β : Type} [DecidableEq α]
    {m : List (α × β)} {k : α} (v : β) (h : k ∉ dkeys m) :
    dinsert m k v = m ++ [(k, v)] := by
  induction m with
  | nil => rfl
  | cons e rest ih =>
    simp only [dkeys, List.map_cons, List.mem_cons] at h
    push_neg at h
    simp only [dinsert, if_neg h.1, List.cons_append]
    rw [ih h.2]

theorem foldBest_no_improve {α : Type} (l : List (α × Nat)) (init : α × Nat)
    (h : ∀ e ∈ l, e.2 ≤ init.2) :
    l.foldl (fun a e => if e.2 > a.2 then e else a) init = init := by
  induction l with
  | nil => rfl
  | cons x rest ih =>
    simp only [List.foldl_cons]
    rw [if_neg (not_lt.2 (h x (List.mem_cons_self _ _)))]
    exact ih (fun e he => h e (List.mem_cons_of_mem _ he))

theorem adopt_latest (c : Crypto) (st : NodeState) :
    (_adopt_best_chain_if_needed c st).latest_hash = (bestPair st).1 ∨
    ((bestPair st).1 = st.latest_hash ∧
      _adopt_best_chain_if_needed c st = st) := by
  unfold _adopt_best_chain_if_needed
  by_cases hc : (bestPair st).1 ≠ st.latest_hash
  · rw [if_pos hc]
    exact Or.inl rfl
  · rw [if_neg hc]
    push_neg at hc
    exact Or.inr ⟨hc, rfl⟩

/-- C7 — `mine_block` postcondition: on success the returned hash is the id
of the block whose parent is the current tip and whose transactions are the
node's own coinbase (output = own public key, no input, the 64-byte random
signature slot) followed by the first `min(|mempool|, BLOCK_SIZE − 1)`
mempool transactions in mempool order; that block is stored, the re-run
chain selector makes it the new tip, the included non-coinbase transactions
are removed from the mempool (by equality) with their input entries
cleared, and every peer is notified. -/
theorem mine_block_postcondition (c : Crypto) (st : NodeState) (sig : Sgn)
    (r : MineResult) (hm : mine_block c st sig = some r)
    (hsig : sig.length = 64)
    (htip : st.latest_hash ∈ dkeys st.block_heights)
    (hmax : ∀ e ∈ st.block_heights, e.2 ≤ tipHeight st)
    (hfh : dlookup st.block_heights
      (get_block_hash c (mineBlockOf st sig)) = none)
    (hmp : MempoolInv st) :
    r.newHash = get_block_hash c (mineBlockOf st sig) ∧
    (mineBlockOf st sig).prev_block_hash = st.latest_hash ∧
    (mineBlockOf st sig).transactions =
      (⟨st.public_key, none, sig⟩ : Transaction) ::
        st.mempool.take (BLOCK_SIZE - 1) ∧
    (⟨st.public_key, none, sig⟩ : Transaction).input = none ∧
    (⟨st.public_key, none, sig⟩ : Transaction).output = st.public_key ∧
    (⟨st.public_key, none, sig⟩ : Transaction).signature.length = 64 ∧
    dlookup r.state.blocks r.newHash = some (mineBlockOf st sig) ∧
    r.state.latest_hash = r.newHash ∧
    (∀ tx ∈ st.mempool.take (BLOCK_SIZE - 1), tx ∉ r.state.mempool ∧
      ∀ i, tx.input = some i → i ∉ r.state.mempool_inputs) ∧
    r.notified = st.connections := by
  by_cases hb : (_store_block c st (mineBlockOf st sig) st.latest_hash).1 = true
  case neg =>
    have hnone : mine_block c st sig = none := by
      simp only [mine_block]
      rw [if_neg hb]
    rw [hnone] at hm
    cases hm
  case pos =>
  have hsome : mine_block c st sig = some
      ⟨get_block_hash c (mineBlockOf st sig),
        removeMined
          (_adopt_best_chain_if_needed c
            (_store_block c st (mineBlockOf st sig) st.latest_hash).2)
          (st.mempool.take (BLOCK_SIZE - 1)),
        st.connections⟩ := by
    simp only [mine_block]
    rw [if_pos hb]
  rw [hsome] at hm
  injection hm with hr
  subst hr
  rcases store_block_cases c st (mineBlockOf st sig) st.latest_hash with hfail |
    ⟨-, up, nu, hup, hprev, -, -, -, hval, hstate⟩
  · rw [hfail] at hb
    cases hb
  have hnotmemH : get_block_hash c (mineBlockOf st sig) ∉
      dkeys st.block_heights := (dlookup_eq_none_iff _ _).1 hfh
  have htipne : st.latest_hash ≠ get_block_hash c (mineBlockOf st sig) :=
    fun he => hnotmemH (he ▸ htip)
  have hbp : bestPair (_store_block c st (mineBlockOf st sig)
      st.latest_hash).2 =
      (get_block_hash c (mineBlockOf st sig),
        (dlookup st.block_heights st.latest_hash).getD 0 + 1) := by
    unfold bestPair
    rw [hstate]
    simp only [storedState]
    rw [dlookup_dinsert_ne st.block_heights _ htipne]
    rw [dinsert_eq_append_of_not_mem _ hnotmemH]
    rw [List.foldl_append]
    rw [foldBest_no_improve st.block_heights _ hmax]
    simp only [List.foldl_cons, List.foldl_nil]
    rw [if_pos (Nat.lt_succ_self _)]
  obtain ⟨g1, g2, g3, g4, g5⟩ :=
    store_block_frame c st (mineBlockOf st sig) st.latest_hash
  have hlat2 : (_adopt_best_chain_if_needed c
      (_store_block c st (mineBlockOf st sig) st.latest_hash).2).latest_hash =
      get_block_hash c (mineBlockOf st sig) := by
    rcases adopt_latest c (_store_block c st (mineBlockOf st sig)
        st.latest_hash).2 with hl | ⟨hl, -⟩
    · rw [hl, hbp]
    · rw [hbp, g3] at hl
      exact absurd hl.symm htipne
  obtain ⟨r1, r2, r3, r4, r5, r6⟩ := removeMined_frame
    (st.mempool.take (BLOCK_SIZE - 1))
    (_adopt_best_chain_if_needed c
      (_store_block c st (mineBlockOf st sig) st.latest_hash).2)
  obtain ⟨fb, fh, fu, fc, fp⟩ := adopt_frame c
    (_store_block c st (mineBlockOf st sig) st.latest_hash).2
  have hmp2 : MempoolInv (_adopt_best_chain_if_needed c
      (_store_block c st (mineBlockOf st sig) st.latest_hash).2) :=
    adopt_mpinv c _ (mempoolInv_transfer hmp g1 g2)
  have hcond : ∀ tx ∈ st.mempool.take (BLOCK_SIZE - 1),
      ∀ tx' ∈ (_adopt_best_chain_if_needed c
        (_store_block c st (mineBlockOf st sig) st.latest_hash).2).mempool,
      tx'.input = tx.input → tx' = tx := by
    intro tx htx tx' htx' heq
    have htx1 : tx ∈ st.mempool := List.take_subset _ _ htx
    have htx'1 : tx' ∈ st.mempool := by
      have hsub := adopt_mempool_subset c
        (_store_block c st (mineBlockOf st sig) st.latest_hash).2 tx' htx'
      rw [g1] at hsub
      exact hsub
    exact pairwise_inputs_eq hmp.distinctInputs tx' htx'1 tx htx1 heq
  obtain ⟨m1, m2, m3, m4⟩ := removeMined_spec
    (st.mempool.take (BLOCK_SIZE - 1)) _ hmp2 hcond
  refine ⟨rfl, rfl, rfl, rfl, rfl, hsig, ?_, ?_, m2, rfl⟩
  · show dlookup (removeMined
        (_adopt_best_chain_if_needed c
          (_store_block c st (mineBlockOf st sig) st.latest_hash).2)
        (st.mempool.take (BLOCK_SIZE - 1))).blocks
      (get_block_hash c (mineBlockOf st sig)) = some (mineBlockOf st sig)
    rw [r1, fb, hstate]
    simp only [storedState]
    exact dlookup_dinsert_self _ _ _
  · show (removeMined
        (_adopt_best_chain_if_needed c
          (_store_block c st (mineBlockOf st sig) st.latest_hash).2)
        (st.mempool.take (BLOCK_SIZE - 1))).latest_hash =
      get_block_hash c (mineBlockOf st sig)
    rw [r4, hlat2]

/-- The result of mining on a fresh node with the concrete facade. -/
def wMine : MineResult :=
  ⟨get_block_hash cSimple (mineBlockOf (initState []) wSig),
    removeMined
      (_adopt_best_chain_if_needed cSimple
        (_store_block cSimple (initState [])
          (mineBlockOf (initState []) wSig)
          (initState []).latest_hash).2)
      ((initState []).mempool.take (BLOCK_SIZE - 1)),
    (initState []).connections⟩

/-- Witness: the mining postcondition evaluated on a fresh node. -/
theorem mine_block_postcondition_witness :
    wMine.newHash = get_block_hash cSimple (mineBlockOf (initState []) wSig) ∧
    (mineBlockOf (initState []) wSig).prev_block_hash =
      (initState []).latest_hash ∧
    (mineBlockOf (initState []) wSig).transactions =
      (⟨(initState []).public_key, none, wSig⟩ : Transaction) ::
        (initState []).mempool.take (BLOCK_SIZE - 1) ∧
    (⟨(initState []).public_key, none, wSig⟩ : Transaction).input = none ∧
    (⟨(initState []).public_key, none, wSig⟩ : Transaction).output =
      (initState []).public_key ∧
    (⟨(initState []).public_key, none, wSig⟩ :
      Transaction).signature.length = 64 ∧
    dlookup wMine.state.blocks wMine.newHash =
      some (mineBlockOf (initState []) wSig) ∧
    wMine.state.latest_hash = wMine.newHash ∧
    (∀ tx ∈ (initState []).mempool.take (BLOCK_SIZE - 1),
      tx ∉ wMine.state.mempool ∧
      ∀ i, tx.input = some i → i ∉ wMine.state.mempool_inputs) ∧
    wMine.notified = (initState []).connections :=
  mine_block_postcondition cSimple (initState []) wSig wMine (by decide)
    (by decide) (by decide) (by decide) (by decide) mpSync_nil
